import Mathlib

/-!
# Moses2 phrase-based Manager and the legacy ThreadPool

A shallow embedding of `contrib/other-builds/moses2/PhraseBased/Manager.cpp`
(`CalcFutureScore`, `Init`/`Decode`, `OutputBest`, `OutputNBest`) and of
`contrib/other-builds/moses2/legacy/ThreadPool.cpp` (`Submit`, `Execute`,
`Stop`), with the properties of the specification stated over them.

The future-score table is embedded twice. Over exact scores the development
is generic in a linearly ordered ring `K` (instances: `ℤ`, `ℚ`), and a score is
an element of `K` or `-∞`. Over binary32 floats (`Float32`, `CalcFutureScore32`)
every joined score is rounded as the code's `float joinedScore` is, and may be
NaN or `+∞`.
-/

namespace Moses2

/-! ## Scores and the estimated-score table -/

/-- Scores are exact numbers of `K` extended with `-∞`, written `⊥`;
`-numeric_limits<SCORE>::infinity()` is `⊥` and `⊥ + x = ⊥`. -/
abbrev SCORE (K : Type) := WithBot K

/-- Modelled from the spec: the `EstimatedScores` square matrix, whose class is
not part of the sources at hand, is the map from (start, end) to the score
stored in that cell. -/
abbrev EstimatedScores (K : Type) := Nat → Nat → SCORE K

/-- A source range, `Range` with `GetStartPos` and `GetEndPos`. -/
structure Range where
  startPos : Nat
  endPos : Nat
deriving DecidableEq, Repr

/-- The collection `TargetPhrases` of one phrase table for one path; a target
phrase is represented by what `GetFutureScore()` returns for it. -/
abbrev TargetPhrases (K : Type) := List (SCORE K)

/-- An input path: its range and, per phrase table `i < numPt`, the pointer
`targetPhrases[i]`, which may be null. -/
structure InputPath (K : Type) where
  range : Range
  targetPhrases : List (Option (TargetPhrases K))

section FutureScore

variable {K : Type} [LinearOrderedRing K]

/-- The call `InitTriangle(v)`: every cell holds `v`. -/
def InitTriangle (v : SCORE K) : EstimatedScores K := fun _ _ => v

/-- The call `GetValue(startPos, endPos)`. -/
def GetValue (m : EstimatedScores K) (startPos endPos : Nat) : SCORE K := m startPos endPos

/-- The call `SetValue(startPos, endPos, value)`. -/
def SetValue (m : EstimatedScores K) (startPos endPos : Nat) (value : SCORE K) :
    EstimatedScores K :=
  fun s e => if s = startPos ∧ e = endPos then value else m s e

/-- The inner `BOOST_FOREACH` over the target phrases of one phrase table:
`if (score > bestScore) bestScore = score`. -/
def scanTargetPhrases (bestScore : SCORE K) (tps : TargetPhrases K) : SCORE K :=
  tps.foldl (fun best score => if score > best then score else best) bestScore

/-- The loop `for (size_t i = 0; i < numPt; ++i)` over the phrase tables of a
path, skipping the null `targetPhrases[i]`. -/
def scanPhraseTables (bestScore : SCORE K) (pts : List (Option (TargetPhrases K))) :
    SCORE K :=
  pts.foldl
    (fun best tps =>
      match tps with
      | some tps => scanTargetPhrases best tps
      | none => best)
    bestScore

/-- The value of `bestScore` for one path, starting from `-∞`. -/
def pathBestScore (path : InputPath K) : SCORE K :=
  scanPhraseTables ⊥ path.targetPhrases

/-- First pass of `CalcFutureScore`: after `InitTriangle(-∞)`, walk all input
paths and record the best future score of each in the cell of its range. -/
def seedScores (paths : List (InputPath K)) : EstimatedScores K :=
  paths.foldl
    (fun m path => SetValue m path.range.startPos path.range.endPos (pathBestScore path))
    (InitTriangle ⊥)

/-- Body of the innermost loop over exact scores: join `[sPos, joinAt]` with
`[joinAt+1, ePos]` and store the joined score when it is greater than the
cell. The sum is exact here; `joinStep32` is the step with the sum rounded to
`float`. -/
def joinStep (sPos ePos : Nat) (m : EstimatedScores K) (joinAt : Nat) : EstimatedScores K :=
  let joinedScore := GetValue m sPos joinAt + GetValue m (joinAt + 1) ePos
  if joinedScore > GetValue m sPos ePos then SetValue m sPos ePos joinedScore else m

/-- The loop `for (joinAt = sPos; joinAt < ePos; joinAt++)`. -/
def joinLoop (m : EstimatedScores K) (sPos ePos : Nat) : EstimatedScores K :=
  (List.range' sPos (ePos - sPos)).foldl (joinStep sPos ePos) m

/-- The loop `for (diagshift = 0; diagshift < size - colstart; diagshift++)`
with `sPos = diagshift` and `ePos = colstart + diagshift`. -/
def diagLoop (size : Nat) (m : EstimatedScores K) (colstart : Nat) : EstimatedScores K :=
  (List.range (size - colstart)).foldl
    (fun m diagshift => joinLoop m diagshift (colstart + diagshift)) m

/-- Second pass of `CalcFutureScore`:
`for (colstart = 1; colstart < size; colstart++)`. -/
def fillScores (size : Nat) (m : EstimatedScores K) : EstimatedScores K :=
  (List.range' 1 (size - 1)).foldl (diagLoop size) m

/-- The table `m_estimatedScores` left by `Manager::CalcFutureScore` for a
sentence of `size` words and the given input paths. -/
def CalcFutureScore (size : Nat) (paths : List (InputPath K)) : EstimatedScores K :=
  fillScores size (seedScores paths)

/-- All future scores of a path, over all its phrase tables. -/
def allScores (path : InputPath K) : List (SCORE K) :=
  (path.targetPhrases.filterMap id).flatten

/-- A decomposition of the span `[i, j]` into consecutive contiguous sub-spans:
the pieces are non-empty spans, the first starts at `i`, each next one starts
right after the previous one ends, and the last ends at `j`. -/
def IsDecomp : Nat → Nat → List (Nat × Nat) → Prop
  | _, _, [] => False
  | i, j, [p] => p.1 = i ∧ p.2 = j ∧ i ≤ j
  | i, j, p :: q :: rest => p.1 = i ∧ i ≤ p.2 ∧ IsDecomp (p.2 + 1) j (q :: rest)

instance IsDecomp.instDecidable : (i j : Nat) → (l : List (Nat × Nat)) →
    Decidable (IsDecomp i j l)
  | _, _, [] => isFalse (fun h => h)
  | i, j, [p] => by unfold IsDecomp; exact inferInstance
  | i, j, p :: q :: rest => by
      unfold IsDecomp
      have := IsDecomp.instDecidable (p.2 + 1) j (q :: rest)
      exact inferInstance

/-- The sum of the cells of `m` at the pieces of a decomposition. -/
def decompScore (m : EstimatedScores K) (pieces : List (Nat × Nat)) : SCORE K :=
  (pieces.map (fun p => m p.1 p.2)).sum

/-- The value `v` is the maximum over all decompositions of `[i, j]` of the
summed cells of `seed`. -/
def IsBestDecomp (seed : EstimatedScores K) (i j : Nat) (v : SCORE K) : Prop :=
  (∀ pieces, IsDecomp i j pieces → decompScore seed pieces ≤ v) ∧
    ∃ pieces, IsDecomp i j pieces ∧ v = decompScore seed pieces

/-- Invariant of the second pass: the cells in `P` (already filled, all of
them strictly above the diagonal) hold the best decomposition score, the
others still hold their seeded value. -/
def FillInv (seed : EstimatedScores K) (P : Nat → Nat → Prop) (t : EstimatedScores K) : Prop :=
  (∀ s e, s ≤ e → (s = e ∨ P s e) → IsBestDecomp seed s e (t s e)) ∧
    ∀ s e, ¬P s e → t s e = seed s e

/-- The cells filled once the outer loop has completed the widths below `c`
and, for width `c`, the start positions below `d`. -/
def Filled (size c d : Nat) (a b : Nat) : Prop :=
  a < b ∧ b < size ∧ (b - a < c ∨ (b - a = c ∧ a < d))

/-- The seeding loop from any starting table. -/
def seedFold (m : EstimatedScores K) (paths : List (InputPath K)) : EstimatedScores K :=
  paths.foldl
    (fun m path => SetValue m path.range.startPos path.range.endPos (pathBestScore path)) m

/-- The scenario of a sentence of 3 words: one path per span, each single-word
span and each adjacent-pair span has exactly one candidate, of future score 1,
and the full span has none. -/
def IsScenario3 (paths : List (InputPath K)) : Prop :=
  (paths.map (fun p => p.range)).Nodup ∧
    (∀ r ∈ [(⟨0, 0⟩ : Range), ⟨1, 1⟩, ⟨2, 2⟩, ⟨0, 1⟩, ⟨1, 2⟩],
      ∃ p ∈ paths, p.range = r ∧ allScores p = [1]) ∧
    ∀ p ∈ paths, p.range = ⟨0, 2⟩ → allScores p = []

end FutureScore

/-- The 3-word scenario over integer scores, with one phrase table. -/
def scenarioPaths : List (InputPath ℤ) :=
  [⟨⟨0, 0⟩, [some [1]]⟩, ⟨⟨1, 1⟩, [some [1]]⟩, ⟨⟨2, 2⟩, [some [1]]⟩,
    ⟨⟨0, 1⟩, [some [1]]⟩, ⟨⟨1, 2⟩, [some [1]]⟩, ⟨⟨0, 2⟩, [none]⟩]


/-- An input path of a first word with candidates in two phrase tables. -/
def twoTableFirst : InputPath ℤ := ⟨⟨0, 0⟩, [some [2, 5], some [3]]⟩

/-- The input paths of a 2-word sentence with two phrase tables, over integer
scores: the first word has candidates in both tables, the second has none. -/
def twoTablePaths : List (InputPath ℤ) :=
  [twoTableFirst, ⟨⟨1, 1⟩, [none, some []]⟩, ⟨⟨0, 1⟩, [some [4], none]⟩]

/-! ## The table over binary32 floats

The typedef `SCORE` is declared outside the sources at hand; it is taken to
be `float`, the type `CalcFutureScore` gives `joinedScore`. A finite float is
an integer multiple of `2^-149`, the smallest subnormal, with at most 24
significant bits and magnitude at most `(2^24 - 1) * 2^104`; it is represented
by that integer, so that the sum of two finite floats is the sum of their
integers, rounded. The two zeros are not told apart: they compare equal and
add alike. -/

/-- A value of a binary32 `float`: NaN, `-∞`, `+∞` or the finite value
`n * 2^-149`. -/
inductive Float32 where
  | nan
  | negInf
  | posInf
  | fin (n : Int)
deriving DecidableEq, Repr

/-- How many low bits of the magnitude `a` do not fit in a 24-bit significand;
the first argument bounds the count, and 254 is enough for every magnitude
below `2^278`. -/
def excessBits : Nat → Nat → Nat
  | 0, _ => 0
  | bound + 1, a => if a < 2 ^ 24 then 0 else excessBits bound (a / 2) + 1

/-- Round a magnitude to 24 significant bits, to nearest, ties to even. -/
def roundMagnitude (a : Nat) : Nat :=
  let s := excessBits 254 a
  if s = 0 then a
  else
    let q := a / 2 ^ s
    let r := a % 2 ^ s
    let half := 2 ^ (s - 1)
    if r > half ∨ (r = half ∧ q % 2 = 1) then (q + 1) * 2 ^ s else q * 2 ^ s

/-- The magnitude of `FLT_MAX`, `(2^24 - 1) * 2^104`, in units of `2^-149`. -/
def maxMagnitude : Nat := (2 ^ 24 - 1) * 2 ^ 253

/-- The magnitude `2^128`, in units of `2^-149`: what rounds to it or lies
beyond it overflows. -/
def overflowMagnitude : Nat := 2 ^ 24 * 2 ^ 253

/-- Round the exact value `n * 2^-149` to a float: to nearest, ties to even,
and to an infinity on overflow. -/
def round32 (n : Int) : Float32 :=
  if n.natAbs ≥ overflowMagnitude ∨ roundMagnitude n.natAbs > maxMagnitude then
    (if n < 0 then .negInf else .posInf)
  else .fin (if n < 0 then -(roundMagnitude n.natAbs : Int) else (roundMagnitude n.natAbs : Int))

/-- The integer `z` in units of `2^-149`. -/
def unitsOf (z : Int) : Int := z * Int.ofNat (2 ^ 149)

/-- The float nearest to the integer `z`. -/
def Float32.ofInt (z : Int) : Float32 := round32 (unitsOf z)

/-- Float addition `x + y`. -/
def Float32.add : Float32 → Float32 → Float32
  | .nan, _ => .nan
  | _, .nan => .nan
  | .posInf, .negInf => .nan
  | .negInf, .posInf => .nan
  | .posInf, _ => .posInf
  | _, .posInf => .posInf
  | .negInf, _ => .negInf
  | _, .negInf => .negInf
  | .fin a, .fin b => round32 (a + b)

/-- Float comparison `x > y`, false when either side is NaN. -/
def Float32.gt : Float32 → Float32 → Bool
  | .nan, _ => false
  | _, .nan => false
  | .negInf, _ => false
  | _, .posInf => false
  | .posInf, _ => true
  | .fin _, .negInf => true
  | .fin a, .fin b => decide (a > b)

/-- Whether a float is a number or `-∞`, that is neither NaN nor `+∞`. -/
def Float32.isScore : Float32 → Bool
  | .negInf => true
  | .fin _ => true
  | _ => false

/-- The exact value of a float that is a number or `-∞`, in units of
`2^-149`. -/
def Float32.val : Float32 → WithBot ℤ
  | .fin n => (n : WithBot ℤ)
  | _ => ⊥

/-- An exact score is representable when it is `-∞` or rounds to itself. -/
def Representable (x : WithBot ℤ) : Prop :=
  ∀ n : ℤ, x = (n : WithBot ℤ) → round32 n = Float32.fin n

/-- Modelled from the spec: the `EstimatedScores` square matrix over floats,
the map from (start, end) to the float stored in that cell. -/
abbrev EstimatedScores32 := Nat → Nat → Float32

/-- The call `InitTriangle(v)`: every cell holds `v`. -/
def InitTriangle32 (v : Float32) : EstimatedScores32 := fun _ _ => v

/-- The call `GetValue(startPos, endPos)`. -/
def GetValue32 (m : EstimatedScores32) (startPos endPos : Nat) : Float32 := m startPos endPos

/-- The call `SetValue(startPos, endPos, value)`. -/
def SetValue32 (m : EstimatedScores32) (startPos endPos : Nat) (value : Float32) :
    EstimatedScores32 :=
  fun s e => if s = startPos ∧ e = endPos then value else m s e

/-- An input path with float future scores: its range and, per phrase table,
the pointer `targetPhrases[i]`, which may be null. -/
structure InputPath32 where
  range : Range
  targetPhrases : List (Option (List Float32))

/-- The inner `BOOST_FOREACH` over the target phrases of one phrase table:
`if (score > bestScore) bestScore = score`. -/
def scanTargetPhrases32 (bestScore : Float32) (tps : List Float32) : Float32 :=
  tps.foldl (fun best score => if score.gt best then score else best) bestScore

/-- The loop over the phrase tables of a path, skipping the null
`targetPhrases[i]`. -/
def scanPhraseTables32 (bestScore : Float32) (pts : List (Option (List Float32))) : Float32 :=
  pts.foldl
    (fun best tps =>
      match tps with
      | some tps => scanTargetPhrases32 best tps
      | none => best)
    bestScore

/-- The value of `bestScore` for one path, starting from `-∞`. -/
def pathBestScore32 (path : InputPath32) : Float32 :=
  scanPhraseTables32 .negInf path.targetPhrases

/-- First pass of `CalcFutureScore` over floats: after `InitTriangle(-∞)`,
record the best future score of each input path in the cell of its range. -/
def seedScores32 (paths : List InputPath32) : EstimatedScores32 :=
  paths.foldl
    (fun m path => SetValue32 m path.range.startPos path.range.endPos (pathBestScore32 path))
    (InitTriangle32 .negInf)

/-- Body of the innermost loop over floats: `float joinedScore` is the rounded
sum of the two cells, stored when it is greater than the cell. -/
def joinStep32 (sPos ePos : Nat) (m : EstimatedScores32) (joinAt : Nat) : EstimatedScores32 :=
  let joinedScore := (GetValue32 m sPos joinAt).add (GetValue32 m (joinAt + 1) ePos)
  if joinedScore.gt (GetValue32 m sPos ePos) then SetValue32 m sPos ePos joinedScore else m

/-- The loop `for (joinAt = sPos; joinAt < ePos; joinAt++)` over floats. -/
def joinLoop32 (m : EstimatedScores32) (sPos ePos : Nat) : EstimatedScores32 :=
  (List.range' sPos (ePos - sPos)).foldl (joinStep32 sPos ePos) m

/-- The loop `for (diagshift = 0; diagshift < size - colstart; diagshift++)`
over floats. -/
def diagLoop32 (size : Nat) (m : EstimatedScores32) (colstart : Nat) : EstimatedScores32 :=
  (List.range (size - colstart)).foldl
    (fun m diagshift => joinLoop32 m diagshift (colstart + diagshift)) m

/-- Second pass of `CalcFutureScore` over floats:
`for (colstart = 1; colstart < size; colstart++)`. -/
def fillScores32 (size : Nat) (m : EstimatedScores32) : EstimatedScores32 :=
  (List.range' 1 (size - 1)).foldl (diagLoop32 size) m

/-- The float table `m_estimatedScores` left by `Manager::CalcFutureScore` for
a sentence of `size` words and the given input paths. -/
def CalcFutureScore32 (size : Nat) (paths : List InputPath32) : EstimatedScores32 :=
  fillScores32 size (seedScores32 paths)

/-- The exact values of the cells of a float table. -/
def exactTable (m : EstimatedScores32) : EstimatedScores ℤ :=
  fun s e => (m s e).val

/-- Invariant of the second pass over floats, for the sub-spans of `[i, j]`:
the filled cells hold a number or `-∞` whose exact value is the best
decomposition score of the exact seeded values, the cells not yet filled hold
their seeded value. -/
def FillInv32 (i j : Nat) (seed : EstimatedScores32) (P : Nat → Nat → Prop)
    (t : EstimatedScores32) : Prop :=
  (∀ s e, i ≤ s → s ≤ e → e ≤ j → (s = e ∨ P s e) →
    (t s e).isScore = true ∧ IsBestDecomp (exactTable seed) s e (t s e).val) ∧
    ∀ s e, ¬P s e → t s e = seed s e

/-- A 2-word sentence over floats: the words have one candidate each, of
future scores 16777216 and 1, and the pair has none. -/
def roundingPaths : List InputPath32 :=
  [⟨⟨0, 0⟩, [some [Float32.ofInt 16777216]]⟩, ⟨⟨1, 1⟩, [some [Float32.ofInt 1]]⟩,
    ⟨⟨0, 1⟩, [none]⟩]

/-- The 3-word scenario over floats, with one phrase table. -/
def scenarioPaths32 : List InputPath32 :=
  [⟨⟨0, 0⟩, [some [Float32.ofInt 1]]⟩, ⟨⟨1, 1⟩, [some [Float32.ofInt 1]]⟩,
    ⟨⟨2, 2⟩, [some [Float32.ofInt 1]]⟩, ⟨⟨0, 1⟩, [some [Float32.ofInt 1]]⟩,
    ⟨⟨1, 2⟩, [some [Float32.ofInt 1]]⟩, ⟨⟨0, 2⟩, [none]⟩]

/-- A 2-word sentence over floats: the words have candidates of future scores
1 and 2, the pair has one of future score 1. -/
def smallPaths : List InputPath32 :=
  [⟨⟨0, 0⟩, [some [Float32.ofInt 1]]⟩, ⟨⟨1, 1⟩, [some [Float32.ofInt 2]]⟩,
    ⟨⟨0, 1⟩, [some [Float32.ofInt 1]]⟩]

/-! ## Search selection: `Manager::Init` and `Manager::Decode` -/

/-- The values of `system.options.search.algo` that `Manager::Init` switches
on. The enum is declared outside the sources at hand; `Other` stands for any
enumerator that is not one of the four named in the switch. -/
inductive SearchAlgorithm where
  | Normal
  | NormalBatch
  | CubePruning
  | CubePruningMiniStack
  | Other (code : Nat)
deriving DecidableEq, Repr

/-- The search classes `Manager::Init` can construct. -/
inductive SearchClass where
  | NSNormal
  | NSBatch
  | NSCubePruningMiniStack
deriving DecidableEq, Repr

/-- What a run of `Manager::Decode` does to the search object and the process. -/
inductive ManagerEvent where
  | construct (c : SearchClass)
  | searchDecode (c : SearchClass)
  | report (msg : String)
  | abort
deriving DecidableEq, Repr

/-- The `switch (system.options.search.algo)` that ends `Manager::Init`: the
events it produces and the value of `m_search` it leaves, `none` when the
process was aborted. The steps of `Init` before the switch do not touch
`m_search`. -/
def Init (algo : SearchAlgorithm) : List ManagerEvent × Option SearchClass :=
  match algo with
  | .Normal => ([.construct .NSNormal], some .NSNormal)
  | .NormalBatch => ([.construct .NSBatch], some .NSBatch)
  | .CubePruning => ([.construct .NSCubePruningMiniStack], some .NSCubePruningMiniStack)
  | .CubePruningMiniStack =>
      ([.construct .NSCubePruningMiniStack], some .NSCubePruningMiniStack)
  | .Other _ => ([.report "Unknown search algorithm", .abort], none)

/-- The events of `Manager::Decode`: `Init()` and then `m_search->Decode()`,
which is not reached when `Init` aborted. -/
def Decode (algo : SearchAlgorithm) : List ManagerEvent :=
  match Init algo with
  | (events, some search) => events ++ [.searchDecode search]
  | (events, none) => events

/-! ## `Manager::OutputBest` -/

/-- A hypothesis as `OutputBest` sees it: the text `out << GetTotalScore()`
writes and the text `OutputToStream` writes. -/
structure Hypothesis where
  totalScore : String
  rendered : String
deriving DecidableEq, Repr

/-- The string returned by `Manager::OutputBest`, given the option
`ReportHypoScore` and the result of `m_search->GetBestHypothesis()`. -/
def OutputBest (ReportHypoScore : Bool) (bestHypo : Option Hypothesis) : String :=
  let out := ""
  let out :=
    match bestHypo with
    | some hypo =>
        let out := if ReportHypoScore then out ++ hypo.totalScore ++ " " else out
        out ++ hypo.rendered
    | none => if ReportHypoScore then out ++ "0 " else out
  out ++ "\n"

/-! ## `Manager::OutputNBest` -/

/-- A trellis path as `OutputNBest` sees it: what `ToString()` returns and
what `OutputToStream(out, system)` writes. -/
structure TrellisPath where
  str : String
  rendered : String
deriving DecidableEq, Repr

/-- The contenders collection `TrellisPaths`, whose class is not part of the
sources at hand, is a parameter of the loop: a type of collections with the
three operations the loop uses, `empty()`, `Get()` (pop the best path) and the
insertion of the deviant paths of a popped path by `CreateDeviantPaths`. -/
structure Contenders (σ : Type) where
  isEmpty : σ → Bool
  Get : σ → TrellisPath × σ
  CreateDeviantPaths : TrellisPath → σ → σ

/-- The variables of the main loop of `OutputNBest`. The field `popped` is a
history of the loop: the paths returned by `Get()` so far, each with its `ok`
flag. -/
structure NBestState (σ : Type) where
  bestInd : Nat
  contenders : σ
  distinctHypos : List String
  out : String
  popped : List (TrellisPath × Bool)

/-- The call `distinctHypos.insert(tgtPhrase)` on a `set<string>`: the new
set and `.second`, true iff the string was not in the set. -/
def setInsert (distinctHypos : List String) (tgtPhrase : String) : List String × Bool :=
  if tgtPhrase ∈ distinctHypos then (distinctHypos, false)
  else (tgtPhrase :: distinctHypos, true)

/-- One record of the n-best output: `transId |||`, the path and a newline. -/
def nbestRecord (transId : Int) (path : TrellisPath) : String :=
  toString transId ++ " |||" ++ path.rendered ++ "\n"

/-- One iteration of the main loop, entered with a non-empty contenders
collection. -/
def nbestIter {σ : Type} (ops : Contenders σ) (only_distinct : Bool) (transId : Int)
    (st : NBestState σ) : NBestState σ :=
  let (path, contenders) := ops.Get st.contenders
  let (distinctHypos, ok) :=
    if only_distinct then setInsert st.distinctHypos path.str
    else (st.distinctHypos, true)
  let out := if ok then st.out ++ nbestRecord transId path else st.out
  let contenders := ops.CreateDeviantPaths path contenders
  { bestInd := st.bestInd + 1
    contenders := contenders
    distinctHypos := distinctHypos
    out := out
    popped := st.popped ++ [(path, ok)] }

/-- The main loop `while (bestInd < nbest_size && !contenders.empty())`; the
first argument is `nbest_size - bestInd`, which every iteration lowers by one
since `++bestInd` ends every iteration. -/
def nbestLoop {σ : Type} (ops : Contenders σ) (only_distinct : Bool) (transId : Int) :
    Nat → NBestState σ → NBestState σ
  | 0, st => st
  | remaining + 1, st =>
      if ops.isEmpty st.contenders then st
      else nbestLoop ops only_distinct transId remaining
        (nbestIter ops only_distinct transId st)

/-- The state in which `OutputNBest` leaves its main loop, given the
contenders after `AddInitialTrellisPaths`. -/
def OutputNBestRun {σ : Type} (ops : Contenders σ) (only_distinct : Bool) (nbest_size : Nat)
    (transId : Int) (initial : σ) : NBestState σ :=
  nbestLoop ops only_distinct transId nbest_size
    { bestInd := 0, contenders := initial, distinctHypos := [], out := "", popped := [] }

/-- The string returned by `Manager::OutputNBest`. -/
def OutputNBest {σ : Type} (ops : Contenders σ) (only_distinct : Bool) (nbest_size : Nat)
    (transId : Int) (initial : σ) : String :=
  (OutputNBestRun ops only_distinct nbest_size transId initial).out

/-- The paths written to the output, in order: the popped paths with `ok`. -/
def written (popped : List (TrellisPath × Bool)) : List TrellisPath :=
  (popped.filter (fun p => p.2)).map (fun p => p.1)

/-- The output made of one record per path, in order. -/
def renderRecords (transId : Int) (out : String) (paths : List TrellisPath) : String :=
  paths.foldl (fun out path => out ++ nbestRecord transId path) out

/-- Invariant of the main loop of `OutputNBest` with `only_distinct`: the
counter is the number of popped paths, the set holds the strings of the popped
paths, the written paths have distinct strings, a popped path has `ok` iff no
earlier popped path has its string, and `out` holds the records written. -/
def NBestInv {σ : Type} (transId : Int) (st : NBestState σ) : Prop :=
  st.bestInd = st.popped.length ∧
    (∀ s, s ∈ st.distinctHypos ↔ ∃ p ∈ st.popped, p.1.str = s) ∧
    ((written st.popped).map (fun p => p.str)).Nodup ∧
    (∀ pre p ok post, st.popped = pre ++ (p, ok) :: post →
      (ok = true ↔ ∀ q ∈ pre, q.1.str ≠ p.str)) ∧
    st.out = renderRecords transId "" (written st.popped)

/-- A contenders collection that is a plain queue of paths without deviants:
`Get` takes the head. -/
def listContenders : Contenders (List TrellisPath) where
  isEmpty := fun c => c.isEmpty
  Get := fun c =>
    match c with
    | [] => (⟨"", ""⟩, [])
    | p :: rest => (p, rest)
  CreateDeviantPaths := fun _ c => c

/-- A path rendered as `a`. -/
def pathA : TrellisPath := ⟨"a", "a"⟩

/-- A path rendered as `b`. -/
def pathB : TrellisPath := ⟨"b", "b"⟩

/-! ## The legacy `ThreadPool` -/

/-- A task is identified by a number. -/
abbrev Task := Nat

/-- The data members of `ThreadPool` that `Submit`, `Execute` and `Stop` use;
the front of the queue `m_tasks` is the head of the list. -/
structure ThreadPool where
  m_tasks : List Task
  m_stopped : Bool
  m_stopping : Bool
  m_queueLimit : Nat
deriving DecidableEq, Repr

/-- The constructor: `m_stopped(false), m_stopping(false), m_queueLimit(0)`. -/
def ThreadPool.new : ThreadPool :=
  { m_tasks := [], m_stopped := false, m_stopping := false, m_queueLimit := 0 }

/-- Modelled from the spec: the configured queue limit; the setter is declared
in `ThreadPool.h`, which is not part of the sources at hand. -/
def ThreadPool.SetQueueLimit (p : ThreadPool) (limit : Nat) : ThreadPool :=
  { p with m_queueLimit := limit }

/-- How a call of `Submit` stands after a step under the mutex. -/
inductive SubmitResult where
  | rejected
  | blocked
  | pushed
deriving DecidableEq, Repr

/-- The loop `while (m_queueLimit > 0 && m_tasks.size() >= m_queueLimit) wait`
and what follows it: the caller stays blocked, or pushes its task. -/
def SubmitWait (p : ThreadPool) (task : Task) : ThreadPool × SubmitResult :=
  if p.m_queueLimit > 0 ∧ p.m_tasks.length ≥ p.m_queueLimit then (p, .blocked)
  else ({ p with m_tasks := p.m_tasks ++ [task] }, .pushed)

/-- The call `ThreadPool::Submit(task)` up to its first wait: the
`runtime_error` when `m_stopping`, else the wait loop. -/
def Submit (p : ThreadPool) (task : Task) : ThreadPool × SubmitResult :=
  if p.m_stopping then (p, .rejected)
  else SubmitWait p task

/-- One iteration of the loop of `ThreadPool::Execute` after its wait:
`if (!m_stopped && !m_tasks.empty())` take the front task. -/
def ExecuteIter (p : ThreadPool) : ThreadPool × Option Task :=
  if !p.m_stopped && !p.m_tasks.isEmpty then
    match p.m_tasks with
    | task :: rest => ({ p with m_tasks := rest }, some task)
    | [] => (p, none)
  else (p, none)

/-- The first block of `ThreadPool::Stop`: `if (m_stopped) return;
m_stopping = true;`. The flag tells whether the call returned. -/
def StopEnter (p : ThreadPool) : ThreadPool × Bool :=
  if p.m_stopped then (p, true)
  else ({ p with m_stopping := true }, false)

/-- Whether a call of `Stop` gets past its second block: at once without
`processRemainingJobs`, else when `while (!m_tasks.empty() && !m_stopped)` ends. -/
def StopDrained (p : ThreadPool) (processRemainingJobs : Bool) : Bool :=
  !processRemainingJobs || !(!p.m_tasks.isEmpty && !p.m_stopped)

/-- The third block of `ThreadPool::Stop`: `m_stopped = true`. -/
def StopFinish (p : ThreadPool) : ThreadPool :=
  { p with m_stopped := true }

/-- The pool together with the calls in flight: the tasks of the `Submit`
calls blocked in their wait loop, and the `processRemainingJobs` of the `Stop`
calls that are past their first block. -/
structure PoolState where
  pool : ThreadPool
  waitingSubmits : List Task
  pendingStops : List Bool
deriving DecidableEq, Repr

/-- The steps of the pool: a call of `Submit`, the wake-up of a blocked
`Submit`, one `Execute` iteration, a call of `Stop`, and the progress of a
`Stop` past its drain wait. -/
inductive PoolStep where
  | submit (task : Task)
  | submitWake (i : Nat)
  | execute
  | stop (processRemainingJobs : Bool)
  | stopAdvance (i : Nat)
deriving DecidableEq, Repr

/-- The effect of one step on the pool and the calls in flight. -/
def poolStep (s : PoolState) : PoolStep → PoolState
  | .submit task =>
      match Submit s.pool task with
      | (_, .rejected) => s
      | (_, .blocked) => { s with waitingSubmits := s.waitingSubmits ++ [task] }
      | (p, .pushed) => { s with pool := p }
  | .submitWake i =>
      match s.waitingSubmits.get? i with
      | none => s
      | some task =>
          match SubmitWait s.pool task with
          | (p, .pushed) => { s with pool := p, waitingSubmits := s.waitingSubmits.eraseIdx i }
          | _ => s
  | .execute => { s with pool := (ExecuteIter s.pool).1 }
  | .stop processRemainingJobs =>
      match StopEnter s.pool with
      | (_, true) => s
      | (p, false) => { s with pool := p, pendingStops := s.pendingStops ++ [processRemainingJobs] }
  | .stopAdvance i =>
      match s.pendingStops.get? i with
      | none => s
      | some processRemainingJobs =>
          if StopDrained s.pool processRemainingJobs then
            { s with pool := StopFinish s.pool, pendingStops := s.pendingStops.eraseIdx i }
          else s

/-- The state right after construction, with the queue limit configured. -/
def PoolState.init (limit : Nat) : PoolState :=
  { pool := ThreadPool.new.SetQueueLimit limit, waitingSubmits := [], pendingStops := [] }

/-- The state after a sequence of steps. -/
def poolRun (s : PoolState) (steps : List PoolStep) : PoolState :=
  steps.foldl poolStep s

/-- Invariant of the pool under its steps: `m_stopped` implies `m_stopping`,
and so does a `Stop` call in flight. -/
def PoolInv (s : PoolState) : Prop :=
  (s.pool.m_stopped = true → s.pool.m_stopping = true) ∧
    (s.pendingStops ≠ [] → s.pool.m_stopping = true)

/-- Invariant of the queue under the steps of the pool, for a configured
limit: the limit stays as configured, a positive limit bounds the queue length,
and with limit 0 no `Submit` call is blocked. -/
def QueueInv (limit : Nat) (s : PoolState) : Prop :=
  s.pool.m_queueLimit = limit ∧
    (0 < limit → s.pool.m_tasks.length ≤ limit) ∧
    (limit = 0 → s.waitingSubmits = [])

/-! ## Future-score table: auxiliary lemmas -/

section FutureScoreLemmas

variable {K : Type} [LinearOrderedRing K]

theorem foldl_range'_inv {β : Type} (f : β → Nat → β) (I : Nat → β → Prop) :
    ∀ (n a : Nat) (b : β), I a b →
      (∀ k b, a ≤ k → k < a + n → I k b → I (k + 1) (f b k)) →
      I (a + n) ((List.range' a n).foldl f b) := by
  intro n
  induction n with
  | zero => intro a b h0 _; simpa using h0
  | succ n ih =>
    intro a b h0 hstep
    have h1 : I (a + 1) (f b a) := hstep a b (le_refl _) (by omega) h0
    have h2 := ih (a + 1) (f b a) h1
      (fun k b hk hlt hI => hstep k b (by omega) (by omega) hI)
    simp only [List.range'_succ, List.foldl_cons]
    have e : a + (n + 1) = a + 1 + n := by omega
    rw [e]
    exact h2

theorem isDecomp_single {i j : Nat} (h : i ≤ j) : IsDecomp i j [(i, j)] := by
  simp [IsDecomp, h]

theorem isDecomp_le : ∀ (l : List (Nat × Nat)) (i j : Nat), IsDecomp i j l → i ≤ j
  | [], _, _, h => by simp [IsDecomp] at h
  | [p], i, j, h => by simp [IsDecomp] at h; exact h.2.2
  | p :: q :: rest, i, j, h => by
    simp only [IsDecomp] at h
    have := isDecomp_le (q :: rest) (p.2 + 1) j h.2.2
    omega

theorem isDecomp_cases {i j : Nat} {l : List (Nat × Nat)} (h : IsDecomp i j l) :
    l = [(i, j)] ∨ ∃ k rest, l = (i, k) :: rest ∧ i ≤ k ∧ k < j ∧ IsDecomp (k + 1) j rest := by
  match l, h with
  | [p], h =>
    left
    simp only [IsDecomp] at h
    obtain ⟨a, b⟩ := p
    simp at h
    simp [h.1, h.2.1]
  | p :: q :: rest, h =>
    right
    simp only [IsDecomp] at h
    obtain ⟨a, b⟩ := p
    simp at h
    refine ⟨b, q :: rest, by simp [h.1], h.2.1, ?_, h.2.2⟩
    have := isDecomp_le _ _ _ h.2.2
    omega

theorem isDecomp_cons {i k j : Nat} {rest : List (Nat × Nat)} (hik : i ≤ k)
    (h : IsDecomp (k + 1) j rest) : IsDecomp i j ((i, k) :: rest) := by
  match rest, h with
  | q :: rest, h => simp [IsDecomp, hik, h]

theorem isDecomp_append : ∀ (l₁ : List (Nat × Nat)) (i k j : Nat) (l₂ : List (Nat × Nat)),
    IsDecomp i k l₁ → IsDecomp (k + 1) j l₂ → IsDecomp i j (l₁ ++ l₂)
  | [], _, _, _, _, h, _ => by simp [IsDecomp] at h
  | [p], i, k, j, l₂, h₁, h₂ => by
    obtain ⟨a, b⟩ := p
    simp [IsDecomp] at h₁
    obtain ⟨rfl, rfl, hab⟩ := h₁
    exact isDecomp_cons hab h₂
  | p :: q :: rest, i, k, j, l₂, h₁, h₂ => by
    obtain ⟨a, b⟩ := p
    simp only [IsDecomp] at h₁
    have ih := isDecomp_append (q :: rest) (b + 1) k j l₂ h₁.2.2 h₂
    have ha : a = i := h₁.1
    subst ha
    have := isDecomp_cons h₁.2.1 ih
    simpa using this

theorem decompScore_single (m : EstimatedScores K) (i j : Nat) :
    decompScore m [(i, j)] = m i j := by
  simp [decompScore]

theorem decompScore_cons (m : EstimatedScores K) (p : Nat × Nat) (rest : List (Nat × Nat)) :
    decompScore m (p :: rest) = m p.1 p.2 + decompScore m rest := by
  simp [decompScore]

theorem decompScore_append (m : EstimatedScores K) (l₁ l₂ : List (Nat × Nat)) :
    decompScore m (l₁ ++ l₂) = decompScore m l₁ + decompScore m l₂ := by
  simp [decompScore]

theorem isBestDecomp_diag (seed : EstimatedScores K) (i : Nat) :
    IsBestDecomp seed i i (seed i i) := by
  constructor
  · intro pieces h
    rcases isDecomp_cases h with rfl | ⟨k, rest, _, h1, h2, _⟩
    · simp [decompScore_single]
    · omega
  · exact ⟨[(i, i)], isDecomp_single (le_refl _), by simp [decompScore_single]⟩

theorem isBestDecomp_seed_le {seed : EstimatedScores K} {i j : Nat} {v : SCORE K}
    (hij : i ≤ j) (h : IsBestDecomp seed i j v) : seed i j ≤ v := by
  have := h.1 [(i, j)] (isDecomp_single hij)
  simpa [decompScore_single] using this

theorem isBestDecomp_join (seed t : EstimatedScores K) (s e : Nat) (v : SCORE K)
    (hsub : ∀ k, s ≤ k → k < e →
      IsBestDecomp seed s k (t s k) ∧ IsBestDecomp seed (k + 1) e (t (k + 1) e))
    (hseed : seed s e ≤ v)
    (hjoin : ∀ k, s ≤ k → k < e → t s k + t (k + 1) e ≤ v)
    (hatt : (s ≤ e ∧ v = seed s e) ∨ ∃ k, s ≤ k ∧ k < e ∧ v = t s k + t (k + 1) e) :
    IsBestDecomp seed s e v := by
  constructor
  · intro pieces h
    rcases isDecomp_cases h with rfl | ⟨k, rest, rfl, h1, h2, h3⟩
    · simpa [decompScore_single] using hseed
    · rw [decompScore_cons]
      obtain ⟨ha, hb⟩ := hsub k h1 h2
      calc seed s k + decompScore seed rest
          ≤ t s k + t (k + 1) e :=
            add_le_add (isBestDecomp_seed_le h1 ha) (hb.1 rest h3)
        _ ≤ v := hjoin k h1 h2
  · rcases hatt with ⟨hse, rfl⟩ | ⟨k, h1, h2, rfl⟩
    · exact ⟨[(s, e)], isDecomp_single hse, by simp [decompScore_single]⟩
    · obtain ⟨ha, hb⟩ := hsub k h1 h2
      obtain ⟨l₁, hl₁, e₁⟩ := ha.2
      obtain ⟨l₂, hl₂, e₂⟩ := hb.2
      exact ⟨l₁ ++ l₂, isDecomp_append _ _ _ _ _ hl₁ hl₂, by
        rw [decompScore_append, e₁, e₂]⟩

theorem joinStep_frame (s e : Nat) (m : EstimatedScores K) (k a b : Nat)
    (h : ¬(a = s ∧ b = e)) : joinStep s e m k a b = m a b := by
  unfold joinStep
  split
  · simp [SetValue, h]
  · rfl

theorem joinStep_cell (s e : Nat) (m : EstimatedScores K) (k : Nat) :
    joinStep s e m k s e = max (m s e) (m s k + m (k + 1) e) := by
  unfold joinStep
  simp only [GetValue]
  split
  · rename_i h
    simp [SetValue, max_eq_right (le_of_lt h)]
  · rename_i h
    simp [max_eq_left (not_lt.mp h)]

/-- What the innermost loop leaves, for any list of join points inside `[s, e)`. -/
theorem joinFold_spec (s e : Nat) : ∀ (L : List Nat) (m : EstimatedScores K),
    (∀ k ∈ L, s ≤ k ∧ k < e) →
    (∀ a b, ¬(a = s ∧ b = e) → L.foldl (joinStep s e) m a b = m a b) ∧
    m s e ≤ L.foldl (joinStep s e) m s e ∧
    (∀ k ∈ L, m s k + m (k + 1) e ≤ L.foldl (joinStep s e) m s e) ∧
    (L.foldl (joinStep s e) m s e = m s e ∨
      ∃ k ∈ L, L.foldl (joinStep s e) m s e = m s k + m (k + 1) e) := by
  intro L
  induction L with
  | nil => intro m _; simp
  | cons k L ih =>
    intro m hL
    have hk := hL k (List.mem_cons_self _ _)
    have hL2 : ∀ k ∈ L, s ≤ k ∧ k < e := fun x hx => hL x (List.mem_cons_of_mem _ hx)
    obtain ⟨f1, f2, f3, f4⟩ := ih (joinStep s e m k) hL2
    have hfr : ∀ a b, ¬(a = s ∧ b = e) → joinStep s e m k a b = m a b :=
      fun a b h => joinStep_frame s e m k a b h
    have hleft : ∀ x, s ≤ x ∧ x < e → joinStep s e m k s x = m s x :=
      fun x hx => hfr s x (by omega)
    have hright : ∀ x, s ≤ x ∧ x < e → joinStep s e m k (x + 1) e = m (x + 1) e :=
      fun x hx => hfr (x + 1) e (by omega)
    have hcell := joinStep_cell s e m k
    simp only [List.foldl_cons]
    refine ⟨?_, ?_, ?_, ?_⟩
    · intro a b h
      rw [f1 a b h, hfr a b h]
    · exact le_trans (by rw [hcell]; exact le_max_left _ _) f2
    · intro x hx
      rcases List.mem_cons.mp hx with rfl | hx
      · exact le_trans (by rw [hcell]; exact le_max_right _ _) f2
      · have := f3 x hx
        rwa [hleft x (hL2 x hx), hright x (hL2 x hx)] at this
    · rcases f4 with h | ⟨x, hx, h⟩
      · rw [h, hcell]
        rcases max_choice (m s e) (m s k + m (k + 1) e) with h' | h'
        · left; exact h'
        · right; exact ⟨k, List.mem_cons_self _ _, h'⟩
      · right
        refine ⟨x, List.mem_cons_of_mem _ hx, ?_⟩
        rw [h, hleft x (hL2 x hx), hright x (hL2 x hx)]

theorem fillInv_joinLoop (seed t : EstimatedScores K) (P : Nat → Nat → Prop) (s e : Nat)
    (hse : s < e) (hP : ¬P s e)
    (hsub : ∀ k, s ≤ k → k < e → (s = k ∨ P s k) ∧ (k + 1 = e ∨ P (k + 1) e))
    (hinv : FillInv seed P t) :
    FillInv seed (fun a b => P a b ∨ (a = s ∧ b = e)) (joinLoop t s e) := by
  have hL : ∀ k ∈ List.range' s (e - s), s ≤ k ∧ k < e := by
    intro k hk
    rw [List.mem_range'_1] at hk
    omega
  obtain ⟨f1, f2, f3, f4⟩ := joinFold_spec s e (List.range' s (e - s)) t hL
  have hmem : ∀ k, s ≤ k → k < e → k ∈ List.range' s (e - s) := by
    intro k h1 h2
    rw [List.mem_range'_1]
    omega
  have hbest : IsBestDecomp seed s e (joinLoop t s e s e) := by
    apply isBestDecomp_join seed t s e
    · intro k h1 h2
      obtain ⟨ha, hb⟩ := hsub k h1 h2
      exact ⟨hinv.1 s k h1 ha, hinv.1 (k + 1) e (by omega) hb⟩
    · have := hinv.2 s e hP
      rw [← this]
      exact f2
    · intro k h1 h2
      exact f3 k (hmem k h1 h2)
    · rcases f4 with h | ⟨k, hk, h⟩
      · left
        refine ⟨le_of_lt hse, ?_⟩
        show List.foldl (joinStep s e) t (List.range' s (e - s)) s e = seed s e
        rw [h, hinv.2 s e hP]
      · right
        exact ⟨k, (hL k hk).1, (hL k hk).2, h⟩
  constructor
  · intro a b hab h
    by_cases hc : a = s ∧ b = e
    · obtain ⟨rfl, rfl⟩ := hc
      exact hbest
    · have : joinLoop t s e a b = t a b := f1 a b hc
      rw [this]
      apply hinv.1 a b hab
      rcases h with h | h | h
      · left; exact h
      · right; exact h
      · exact absurd h hc
  · intro a b h
    have hc : ¬(a = s ∧ b = e) := fun hc => h (Or.inr hc)
    have : joinLoop t s e a b = t a b := f1 a b hc
    rw [this]
    exact hinv.2 a b (fun hp => h (Or.inl hp))

theorem fillInv_congr {seed t : EstimatedScores K} {P Q : Nat → Nat → Prop}
    (h : ∀ a b, P a b ↔ Q a b) (hinv : FillInv seed P t) : FillInv seed Q t := by
  have : P = Q := by
    funext a b
    exact propext (h a b)
  rw [← this]
  exact hinv

theorem fillInv_diagLoop (seed t : EstimatedScores K) (size c : Nat) (hc : 1 ≤ c)
    (hinv : FillInv seed (Filled size c 0) t) :
    FillInv seed (Filled size (c + 1) 0) (diagLoop size t c) := by
  have key := foldl_range'_inv (fun m diagshift => joinLoop m diagshift (c + diagshift))
    (fun d m => FillInv seed (Filled size c d) m) (size - c) 0 t hinv
    (by
      intro d m _ hd hm
      have := fillInv_joinLoop seed m (Filled size c d) d (c + d) (by omega)
        (by unfold Filled; omega)
        (by intro k h1 h2; unfold Filled; omega) hm
      refine fillInv_congr ?_ this
      intro a b
      unfold Filled
      omega)
  unfold diagLoop
  rw [List.range_eq_range']
  refine fillInv_congr ?_ key
  intro a b
  unfold Filled
  omega

theorem fillInv_fillScores (seed : EstimatedScores K) (size : Nat) :
    FillInv seed (Filled size (1 + (size - 1)) 0) (fillScores size seed) := by
  have h0 : FillInv seed (Filled size 1 0) seed := by
    constructor
    · intro s e hse h
      rcases h with rfl | h
      · exact isBestDecomp_diag seed s
      · unfold Filled at h; omega
    · intro s e _; rfl
  exact foldl_range'_inv (diagLoop size)
    (fun c m => FillInv seed (Filled size c 0) m) (size - 1) 1 seed h0
    (by
      intro c m hc _ hm
      exact fillInv_diagLoop seed m size c hc hm)

theorem fillScores_best (seed : EstimatedScores K) (size i j : Nat) (hij : i ≤ j)
    (hj : j < size) : IsBestDecomp seed i j (fillScores size seed i j) := by
  have h := fillInv_fillScores seed size
  apply h.1 i j hij
  by_cases e : i = j
  · left; exact e
  · right
    unfold Filled
    omega

theorem scanTargetPhrases_eq (b : SCORE K) (tps : TargetPhrases K) :
    scanTargetPhrases b tps = tps.foldl max b := by
  unfold scanTargetPhrases
  congr 1
  funext best score
  split
  · rename_i h; exact (max_eq_right (le_of_lt h)).symm
  · rename_i h; exact (max_eq_left (not_lt.mp h)).symm

theorem scanPhraseTables_eq : ∀ (pts : List (Option (TargetPhrases K))) (b : SCORE K),
    scanPhraseTables b pts = ((pts.filterMap id).flatten).foldl max b := by
  intro pts
  induction pts with
  | nil => intro b; simp [scanPhraseTables]
  | cons o pts ih =>
    intro b
    have hstep : scanPhraseTables b (o :: pts) =
        scanPhraseTables (match o with
          | some tps => scanTargetPhrases b tps
          | none => b) pts := by
      simp [scanPhraseTables]
    rw [hstep, ih]
    cases o with
    | none => simp
    | some tps => simp [scanTargetPhrases_eq, List.foldl_append]

theorem pathBestScore_eq (p : InputPath K) :
    pathBestScore p = (allScores p).foldl max ⊥ := by
  unfold pathBestScore allScores
  exact scanPhraseTables_eq _ _

theorem foldl_max_spec : ∀ (L : List (SCORE K)) (b : SCORE K),
    b ≤ L.foldl max b ∧ (∀ x ∈ L, x ≤ L.foldl max b) ∧
      (L.foldl max b = b ∨ L.foldl max b ∈ L) := by
  intro L
  induction L with
  | nil => intro b; simp
  | cons a L ih =>
    intro b
    obtain ⟨h1, h2, h3⟩ := ih (max b a)
    simp only [List.foldl_cons]
    refine ⟨le_trans (le_max_left _ _) h1, ?_, ?_⟩
    · intro x hx
      rcases List.mem_cons.mp hx with rfl | hx
      · exact le_trans (le_max_right _ _) h1
      · exact h2 x hx
    · rcases h3 with h | h
      · rcases max_choice b a with h' | h'
        · left; rw [h, h']
        · right; rw [h, h']; exact List.mem_cons_self _ _
      · right; exact List.mem_cons_of_mem _ h

theorem pathBestScore_spec (p : InputPath K) :
    (allScores p = [] → pathBestScore p = ⊥) ∧
      (allScores p ≠ [] →
        pathBestScore p ∈ allScores p ∧ ∀ s ∈ allScores p, s ≤ pathBestScore p) := by
  rw [pathBestScore_eq]
  obtain ⟨_, h2, h3⟩ := foldl_max_spec (allScores p) ⊥
  constructor
  · intro h; rw [h]; rfl
  · intro hne
    refine ⟨?_, h2⟩
    rcases h3 with h | h
    · obtain ⟨x, hx⟩ := List.exists_mem_of_ne_nil _ hne
      have hxb : x = ⊥ := le_bot_iff.mp (h ▸ h2 x hx)
      rw [h, ← hxb]
      exact hx
    · exact h

theorem pathBestScore_congr (p q : InputPath K)
    (h : ∀ s, s ∈ allScores q ↔ s ∈ allScores p) : pathBestScore q = pathBestScore p := by
  obtain ⟨p1, p2⟩ := pathBestScore_spec p
  obtain ⟨q1, q2⟩ := pathBestScore_spec q
  by_cases hp : allScores p = []
  · have hq : allScores q = [] := by
      apply List.eq_nil_iff_forall_not_mem.mpr
      intro s hs
      have := (h s).mp hs
      rw [hp] at this
      exact absurd this (List.not_mem_nil _)
    rw [p1 hp, q1 hq]
  · have hq : allScores q ≠ [] := by
      obtain ⟨x, hx⟩ := List.exists_mem_of_ne_nil _ hp
      exact List.ne_nil_of_mem ((h x).mpr hx)
    obtain ⟨pm, pu⟩ := p2 hp
    obtain ⟨qm, qu⟩ := q2 hq
    exact le_antisymm (pu _ ((h _).mp qm)) (qu _ ((h _).mpr pm))

theorem seedScores_eq (paths : List (InputPath K)) :
    seedScores paths = seedFold (InitTriangle ⊥) paths := rfl

theorem seedFold_const : ∀ (paths : List (InputPath K)) (m : EstimatedScores K)
    (s e : Nat) (v : SCORE K), m s e = v →
    (∀ q ∈ paths, q.range = ⟨s, e⟩ → pathBestScore q = v) → seedFold m paths s e = v := by
  intro paths
  induction paths with
  | nil => intro m s e v h _; simpa [seedFold] using h
  | cons q paths ih =>
    intro m s e v hm h
    have : seedFold m (q :: paths) =
        seedFold (SetValue m q.range.startPos q.range.endPos (pathBestScore q)) paths := by
      simp [seedFold]
    rw [this]
    apply ih
    · unfold SetValue
      split
      · rename_i hc
        apply h q (List.mem_cons_self _ _)
        cases hq : q.range
        simp [hq] at hc
        simp [hc.1, hc.2]
      · exact hm
    · intro x hx
      exact h x (List.mem_cons_of_mem _ hx)

theorem seedFold_mem : ∀ (paths : List (InputPath K)) (m : EstimatedScores K)
    (p : InputPath K), p ∈ paths → (paths.map (fun q => q.range)).Nodup →
    seedFold m paths p.range.startPos p.range.endPos = pathBestScore p := by
  intro paths
  induction paths with
  | nil => intro m p hp; exact absurd hp (List.not_mem_nil _)
  | cons q paths ih =>
    intro m p hp hnd
    have hstep : seedFold m (q :: paths) =
        seedFold (SetValue m q.range.startPos q.range.endPos (pathBestScore q)) paths := by
      simp [seedFold]
    rw [hstep]
    simp only [List.map_cons, List.nodup_cons] at hnd
    by_cases hmem : p ∈ paths
    · exact ih _ p hmem hnd.2
    · have hpq : p = q := by
        rcases List.mem_cons.mp hp with h | h
        · exact h
        · exact absurd h hmem
      subst hpq
      apply seedFold_const
      · simp [SetValue]
      · intro x hx hr
        exfalso
        apply hnd.1
        have : x.range = p.range := by rw [hr]
        rw [← this]
        exact List.mem_map_of_mem _ hx

theorem seedScores_bot (paths : List (InputPath K)) (s e : Nat)
    (h : ∀ q ∈ paths, q.range = ⟨s, e⟩ → allScores q = []) : seedScores paths s e = ⊥ := by
  rw [seedScores_eq]
  apply seedFold_const
  · rfl
  · intro q hq hr
    exact (pathBestScore_spec q).1 (h q hq hr)

theorem withBot_one_lt_two : (1 : WithBot K) < 2 := by
  have h : ((1 : K) : WithBot K) < ((2 : K) : WithBot K) :=
    WithBot.coe_lt_coe.mpr (by norm_num)
  exact_mod_cast h

theorem withBot_one_add_two : (1 : WithBot K) + 2 = 3 := by
  have h : ((1 : K) : WithBot K) + ((2 : K) : WithBot K) = ((3 : K) : WithBot K) := by
    rw [← WithBot.coe_add]; norm_num
  exact_mod_cast h

theorem withBot_two_add_one : (2 : WithBot K) + 1 = 3 := by
  have h : ((2 : K) : WithBot K) + ((1 : K) : WithBot K) = ((3 : K) : WithBot K) := by
    rw [← WithBot.coe_add]; norm_num
  exact_mod_cast h

theorem withBot_bot_lt_three : (⊥ : WithBot K) < 3 := by
  have h : (⊥ : WithBot K) < ((3 : K) : WithBot K) := WithBot.bot_lt_coe _
  exact_mod_cast h

theorem fill3_scenario (seed : EstimatedScores K)
    (h00 : seed 0 0 = 1) (h11 : seed 1 1 = 1) (h22 : seed 2 2 = 1) (h01 : seed 0 1 = 1)
    (h12 : seed 1 2 = 1) (h02 : seed 0 2 = ⊥) :
    fillScores 3 seed 0 2 = 3 := by
  simp [fillScores, diagLoop, joinLoop, joinStep, List.range', List.range, List.range.loop,
    SetValue, GetValue, h00, h11, h22, h01, h12, h02, withBot_one_lt_two, one_add_one_eq_two,
    withBot_one_add_two, withBot_two_add_one, withBot_bot_lt_three]

end FutureScoreLemmas

/-! ## The table over binary32 floats: auxiliary lemmas -/

theorem float32_add_exact (x y : Float32) (hx : x.isScore = true) (hy : y.isScore = true)
    (h : Representable (x.val + y.val)) :
    (x.add y).isScore = true ∧ (x.add y).val = x.val + y.val := by
  cases x with
  | nan => simp [Float32.isScore] at hx
  | posInf => simp [Float32.isScore] at hx
  | negInf =>
    cases y with
    | nan => simp [Float32.isScore] at hy
    | posInf => simp [Float32.isScore] at hy
    | negInf => simp [Float32.add, Float32.isScore, Float32.val]
    | fin b => simp [Float32.add, Float32.isScore, Float32.val]
  | fin a =>
    cases y with
    | nan => simp [Float32.isScore] at hy
    | posInf => simp [Float32.isScore] at hy
    | negInf => simp [Float32.add, Float32.isScore, Float32.val]
    | fin b =>
      have e : round32 (a + b) = Float32.fin (a + b) := by
        apply h
        simp [Float32.val]
      simp [Float32.add, e, Float32.isScore, Float32.val]

theorem float32_gt_iff (x y : Float32) (hx : x.isScore = true) (hy : y.isScore = true) :
    x.gt y = true ↔ y.val < x.val := by
  cases x with
  | nan => simp [Float32.isScore] at hx
  | posInf => simp [Float32.isScore] at hx
  | negInf =>
    cases y <;> simp [Float32.gt, Float32.val]
  | fin a =>
    cases y with
    | nan => simp [Float32.isScore] at hy
    | posInf => simp [Float32.isScore] at hy
    | negInf => simp [Float32.gt, Float32.val, WithBot.bot_lt_coe]
    | fin b => simp [Float32.gt, Float32.val]

theorem joinStep32_frame (s e : Nat) (m : EstimatedScores32) (k a b : Nat)
    (h : ¬(a = s ∧ b = e)) : joinStep32 s e m k a b = m a b := by
  unfold joinStep32
  split
  · simp [SetValue32, h]
  · rfl

theorem joinStep32_cell (s e : Nat) (m : EstimatedScores32) (k : Nat)
    (h0 : (m s e).isScore = true) (h1 : (m s k).isScore = true)
    (h2 : (m (k + 1) e).isScore = true)
    (hr : Representable ((m s k).val + (m (k + 1) e).val)) :
    (joinStep32 s e m k s e).isScore = true ∧
      (joinStep32 s e m k s e).val = max (m s e).val ((m s k).val + (m (k + 1) e).val) := by
  obtain ⟨a1, a2⟩ := float32_add_exact _ _ h1 h2 hr
  have hgt := float32_gt_iff _ _ a1 h0
  unfold joinStep32
  simp only [GetValue32]
  split
  · rename_i hc
    have hlt := hgt.mp hc
    rw [a2] at hlt
    simp [SetValue32, a1, a2, max_eq_right (le_of_lt hlt)]
  · rename_i hc
    have hle : (m s k).val + (m (k + 1) e).val ≤ (m s e).val := by
      rw [← a2]
      exact not_lt.mp (fun hlt => hc (hgt.mpr hlt))
    simp [h0, max_eq_left hle]

theorem joinFold32_frame (s e : Nat) : ∀ (L : List Nat) (m : EstimatedScores32) (a b : Nat),
    ¬(a = s ∧ b = e) → L.foldl (joinStep32 s e) m a b = m a b := by
  intro L
  induction L with
  | nil => intro m a b _; rfl
  | cons k L ih =>
    intro m a b h
    simp only [List.foldl_cons]
    rw [ih _ a b h, joinStep32_frame s e m k a b h]

/-- What the innermost loop over floats leaves in its cell when the cells it
reads hold numbers or `-∞` and no addition rounds. -/
theorem joinFold32_spec (s e : Nat) : ∀ (L : List Nat) (m : EstimatedScores32),
    (∀ k ∈ L, s ≤ k ∧ k < e) → (m s e).isScore = true →
    (∀ k ∈ L, (m s k).isScore = true ∧ (m (k + 1) e).isScore = true ∧
      Representable ((m s k).val + (m (k + 1) e).val)) →
    (L.foldl (joinStep32 s e) m s e).isScore = true ∧
    (m s e).val ≤ (L.foldl (joinStep32 s e) m s e).val ∧
    (∀ k ∈ L, (m s k).val + (m (k + 1) e).val ≤ (L.foldl (joinStep32 s e) m s e).val) ∧
    ((L.foldl (joinStep32 s e) m s e).val = (m s e).val ∨
      ∃ k ∈ L, (L.foldl (joinStep32 s e) m s e).val = (m s k).val + (m (k + 1) e).val) := by
  intro L
  induction L with
  | nil => intro m _ h0 _; simp [h0]
  | cons k L ih =>
    intro m hL h0 hk
    have hkb := hL k (List.mem_cons_self _ _)
    obtain ⟨k1, k2, k3⟩ := hk k (List.mem_cons_self _ _)
    have hL2 : ∀ x ∈ L, s ≤ x ∧ x < e := fun x hx => hL x (List.mem_cons_of_mem _ hx)
    have hfr : ∀ a b, ¬(a = s ∧ b = e) → joinStep32 s e m k a b = m a b :=
      fun a b h => joinStep32_frame s e m k a b h
    have hleft : ∀ x, s ≤ x ∧ x < e → joinStep32 s e m k s x = m s x :=
      fun x hx => hfr s x (by omega)
    have hright : ∀ x, s ≤ x ∧ x < e → joinStep32 s e m k (x + 1) e = m (x + 1) e :=
      fun x hx => hfr (x + 1) e (by omega)
    obtain ⟨c1, c2⟩ := joinStep32_cell s e m k h0 k1 k2 k3
    have hk2 : ∀ x ∈ L, (joinStep32 s e m k s x).isScore = true ∧
        (joinStep32 s e m k (x + 1) e).isScore = true ∧
        Representable ((joinStep32 s e m k s x).val + (joinStep32 s e m k (x + 1) e).val) := by
      intro x hx
      rw [hleft x (hL2 x hx), hright x (hL2 x hx)]
      exact hk x (List.mem_cons_of_mem _ hx)
    obtain ⟨f0, f2, f3, f4⟩ := ih (joinStep32 s e m k) hL2 c1 hk2
    simp only [List.foldl_cons]
    refine ⟨f0, ?_, ?_, ?_⟩
    · exact le_trans (by rw [c2]; exact le_max_left _ _) f2
    · intro x hx
      rcases List.mem_cons.mp hx with rfl | hx
      · exact le_trans (by rw [c2]; exact le_max_right _ _) f2
      · have := f3 x hx
        rwa [hleft x (hL2 x hx), hright x (hL2 x hx)] at this
    · rcases f4 with h | ⟨x, hx, h⟩
      · rw [h, c2]
        rcases max_choice (m s e).val ((m s k).val + (m (k + 1) e).val) with h' | h'
        · left; exact h'
        · right; exact ⟨k, List.mem_cons_self _ _, h'⟩
      · right
        refine ⟨x, List.mem_cons_of_mem _ hx, ?_⟩
        rw [h, hleft x (hL2 x hx), hright x (hL2 x hx)]

theorem fillInv32_joinLoop (i j : Nat) (seed t : EstimatedScores32) (P : Nat → Nat → Prop)
    (s e : Nat)
    (hscore : ∀ a b, i ≤ a → a ≤ b → b ≤ j → (seed a b).isScore = true)
    (hexact : ∀ a b pieces, i ≤ a → b ≤ j → IsDecomp a b pieces →
      Representable (decompScore (exactTable seed) pieces))
    (hse : s < e) (hP : ¬P s e)
    (hsub : ∀ k, s ≤ k → k < e → (s = k ∨ P s k) ∧ (k + 1 = e ∨ P (k + 1) e))
    (hinv : FillInv32 i j seed P t) :
    FillInv32 i j seed (fun a b => P a b ∨ (a = s ∧ b = e)) (joinLoop32 t s e) := by
  have hfr : ∀ a b, ¬(a = s ∧ b = e) → joinLoop32 t s e a b = t a b :=
    fun a b h => joinFold32_frame s e _ t a b h
  constructor
  · intro a b hia hab hbj h
    by_cases hc : a = s ∧ b = e
    · obtain ⟨rfl, rfl⟩ := hc
      have hL : ∀ k ∈ List.range' a (b - a), a ≤ k ∧ k < b := by
        intro k hk
        rw [List.mem_range'_1] at hk
        omega
      have hmem : ∀ k, a ≤ k → k < b → k ∈ List.range' a (b - a) := by
        intro k h1 h2
        rw [List.mem_range'_1]
        omega
      have hcell : t a b = seed a b := hinv.2 a b hP
      have hsubinv : ∀ k, a ≤ k → k < b →
          ((t a k).isScore = true ∧ IsBestDecomp (exactTable seed) a k (t a k).val) ∧
          ((t (k + 1) b).isScore = true ∧
            IsBestDecomp (exactTable seed) (k + 1) b (t (k + 1) b).val) := by
        intro k h1 h2
        obtain ⟨ha, hb⟩ := hsub k h1 h2
        exact ⟨hinv.1 a k hia h1 (by omega) ha, hinv.1 (k + 1) b (by omega) (by omega) hbj hb⟩
      have hrep : ∀ k, a ≤ k → k < b →
          Representable ((t a k).val + (t (k + 1) b).val) := by
        intro k h1 h2
        obtain ⟨⟨_, ha⟩, ⟨_, hb⟩⟩ := hsubinv k h1 h2
        obtain ⟨l₁, hl₁, e₁⟩ := ha.2
        obtain ⟨l₂, hl₂, e₂⟩ := hb.2
        have := hexact a b (l₁ ++ l₂) hia hbj (isDecomp_append _ _ _ _ _ hl₁ hl₂)
        rwa [decompScore_append, ← e₁, ← e₂] at this
      obtain ⟨f0, f2, f3, f4⟩ := joinFold32_spec a b (List.range' a (b - a)) t hL
        (by rw [hcell]; exact hscore a b hia hab hbj)
        (fun k hk => ⟨(hsubinv k (hL k hk).1 (hL k hk).2).1.1,
          (hsubinv k (hL k hk).1 (hL k hk).2).2.1, hrep k (hL k hk).1 (hL k hk).2⟩)
      refine ⟨f0, ?_⟩
      apply isBestDecomp_join (exactTable seed) (exactTable t) a b
      · intro k h1 h2
        exact ⟨(hsubinv k h1 h2).1.2, (hsubinv k h1 h2).2.2⟩
      · have : exactTable seed a b = (t a b).val := by simp [exactTable, hcell]
        rw [this]
        exact f2
      · intro k h1 h2
        exact f3 k (hmem k h1 h2)
      · rcases f4 with h | ⟨k, hk, h⟩
        · left
          refine ⟨hab, ?_⟩
          show (List.foldl (joinStep32 a b) t (List.range' a (b - a)) a b).val
            = exactTable seed a b
          rw [h]
          simp [exactTable, hcell]
        · right
          exact ⟨k, (hL k hk).1, (hL k hk).2, h⟩
    · rw [hfr a b hc]
      apply hinv.1 a b hia hab hbj
      rcases h with h | h | h
      · left; exact h
      · right; exact h
      · exact absurd h hc
  · intro a b h
    have hc : ¬(a = s ∧ b = e) := fun hc => h (Or.inr hc)
    rw [hfr a b hc]
    exact hinv.2 a b (fun hp => h (Or.inl hp))

theorem fillInv32_congr {i j : Nat} {seed t : EstimatedScores32} {P Q : Nat → Nat → Prop}
    (h : ∀ a b, P a b ↔ Q a b) (hinv : FillInv32 i j seed P t) : FillInv32 i j seed Q t := by
  have : P = Q := by
    funext a b
    exact propext (h a b)
  rw [← this]
  exact hinv

theorem fillInv32_diagLoop (i j : Nat) (seed t : EstimatedScores32) (size c : Nat)
    (hscore : ∀ a b, i ≤ a → a ≤ b → b ≤ j → (seed a b).isScore = true)
    (hexact : ∀ a b pieces, i ≤ a → b ≤ j → IsDecomp a b pieces →
      Representable (decompScore (exactTable seed) pieces))
    (hc : 1 ≤ c) (hinv : FillInv32 i j seed (Filled size c 0) t) :
    FillInv32 i j seed (Filled size (c + 1) 0) (diagLoop32 size t c) := by
  have key := foldl_range'_inv (fun m diagshift => joinLoop32 m diagshift (c + diagshift))
    (fun d m => FillInv32 i j seed (Filled size c d) m) (size - c) 0 t hinv
    (by
      intro d m _ hd hm
      have := fillInv32_joinLoop i j seed m (Filled size c d) d (c + d) hscore hexact
        (by omega) (by unfold Filled; omega)
        (by intro k h1 h2; unfold Filled; omega) hm
      refine fillInv32_congr ?_ this
      intro a b
      unfold Filled
      omega)
  unfold diagLoop32
  rw [List.range_eq_range']
  refine fillInv32_congr ?_ key
  intro a b
  unfold Filled
  omega

theorem fillInv32_fillScores (i j : Nat) (seed : EstimatedScores32) (size : Nat)
    (hscore : ∀ a b, i ≤ a → a ≤ b → b ≤ j → (seed a b).isScore = true)
    (hexact : ∀ a b pieces, i ≤ a → b ≤ j → IsDecomp a b pieces →
      Representable (decompScore (exactTable seed) pieces)) :
    FillInv32 i j seed (Filled size (1 + (size - 1)) 0) (fillScores32 size seed) := by
  have h0 : FillInv32 i j seed (Filled size 1 0) seed := by
    constructor
    · intro s e his hse hej h
      rcases h with rfl | h
      · exact ⟨hscore s s his hse hej, isBestDecomp_diag (exactTable seed) s⟩
      · unfold Filled at h; omega
    · intro s e _; rfl
  exact foldl_range'_inv (diagLoop32 size)
    (fun c m => FillInv32 i j seed (Filled size c 0) m) (size - 1) 1 seed h0
    (by
      intro c m hc _ hm
      exact fillInv32_diagLoop i j seed m size c hscore hexact hc hm)

theorem fillScores32_best (seed : EstimatedScores32) (size i j : Nat) (hij : i ≤ j)
    (hj : j < size)
    (hscore : ∀ a b, i ≤ a → a ≤ b → b ≤ j → (seed a b).isScore = true)
    (hexact : ∀ a b pieces, i ≤ a → b ≤ j → IsDecomp a b pieces →
      Representable (decompScore (exactTable seed) pieces)) :
    (fillScores32 size seed i j).isScore = true ∧
      IsBestDecomp (exactTable seed) i j (fillScores32 size seed i j).val := by
  have h := fillInv32_fillScores i j seed size hscore hexact
  apply h.1 i j (le_refl _) hij (le_refl _)
  by_cases e : i = j
  · left; exact e
  · right
    unfold Filled
    omega


theorem representable_of_round (n : ℤ) (h : round32 n = Float32.fin n) :
    Representable ((n : ℤ) : WithBot ℤ) := by
  intro m hm
  have : n = m := WithBot.coe_injective hm
  rw [← this]
  exact h

theorem representable_bot : Representable ⊥ := by
  intro n h
  exact absurd h.symm (WithBot.coe_ne_bot)

set_option maxRecDepth 4000

theorem round32_examples :
    Float32.ofInt 1 = Float32.fin (unitsOf 1) ∧
      round32 (unitsOf 16777217) = Float32.fin (unitsOf 16777216) ∧
      round32 (unitsOf 16777219) = Float32.fin (unitsOf 16777220) ∧
      round32 (Int.ofNat maxMagnitude + Int.ofNat (2 ^ 252 - 1)) = Float32.fin maxMagnitude ∧
      round32 (Int.ofNat maxMagnitude + Int.ofNat (2 ^ 252)) = Float32.posInf ∧
      round32 (-(Int.ofNat maxMagnitude + Int.ofNat (2 ^ 252))) = Float32.negInf ∧
      Float32.add Float32.posInf Float32.negInf = Float32.nan ∧
      Float32.gt Float32.nan Float32.negInf = false ∧
      (∀ n : Nat, n < 2 ^ 24 → roundMagnitude n = n) := by
  refine ⟨by decide, by decide, by decide, by decide, by decide, by decide, by decide,
    by decide, ?_⟩
  intro n hn
  have h0 : excessBits 254 n = 0 := by
    show (if n < 2 ^ 24 then 0 else excessBits 253 (n / 2) + 1) = 0
    rw [if_pos hn]
  simp only [roundMagnitude, h0, if_true]

theorem fillScores32_frame (size : Nat) (seed : EstimatedScores32) (a b : Nat)
    (h : ¬(a < b ∧ b < size)) : fillScores32 size seed a b = seed a b := by
  have hinv := fillInv32_fillScores 1 0 seed size (by intro a b h1 h2 h3; omega)
    (by
      intro a b pieces h1 h2 hd
      have := isDecomp_le _ _ _ hd
      omega)
  apply hinv.2 a b
  unfold Filled
  omega

theorem scenario3_float_full_span :
    CalcFutureScore32 3 scenarioPaths32 0 2 = Float32.ofInt 3 := by
  decide

theorem smallPaths_scores :
    ∀ a b, 0 ≤ a → a ≤ b → b ≤ 1 → (seedScores32 smallPaths a b).isScore = true := by
  intro a b _ hab hb
  have ha : a ≤ 1 := by omega
  interval_cases a <;> interval_cases b <;> first | omega | decide

theorem smallPaths_sums_exact :
    ∀ a b pieces, 0 ≤ a → b ≤ 1 → IsDecomp a b pieces →
      Representable (decompScore (exactTable (seedScores32 smallPaths)) pieces) := by
  intro a b pieces _ hb hd
  have hab := isDecomp_le _ _ _ hd
  have ha : a ≤ 1 := by omega
  have h1 : decompScore (exactTable (seedScores32 smallPaths)) [(0, 0)]
      = ((unitsOf 1 : ℤ) : WithBot ℤ) := by decide
  have h2 : decompScore (exactTable (seedScores32 smallPaths)) [(1, 1)]
      = ((unitsOf 2 : ℤ) : WithBot ℤ) := by decide
  have h3 : decompScore (exactTable (seedScores32 smallPaths)) [(0, 1)]
      = ((unitsOf 1 : ℤ) : WithBot ℤ) := by decide
  have h4 : decompScore (exactTable (seedScores32 smallPaths)) [(0, 0), (1, 1)]
      = ((unitsOf 3 : ℤ) : WithBot ℤ) := by decide
  have r1 : Representable ((unitsOf 1 : ℤ) : WithBot ℤ) :=
    representable_of_round _ (by decide)
  have r2 : Representable ((unitsOf 2 : ℤ) : WithBot ℤ) :=
    representable_of_round _ (by decide)
  have r3 : Representable ((unitsOf 3 : ℤ) : WithBot ℤ) :=
    representable_of_round _ (by decide)
  rcases isDecomp_cases hd with rfl | ⟨k, rest, rfl, hk1, hk2, hk3⟩
  · interval_cases a <;> interval_cases b
    · rw [h1]; exact r1
    · rw [h3]; exact r1
    · rw [h2]; exact r2
  · have hb1 : b = 1 := by omega
    have hk0 : k = 0 := by omega
    have ha0 : a = 0 := by omega
    subst hb1 hk0 ha0
    rcases isDecomp_cases hk3 with rfl | ⟨k', rest', rfl, _, _, _⟩
    · rw [h4]; exact r3
    · omega


/-! ## N-best loop: auxiliary lemmas -/

section NBestLemmas

variable {σ : Type}

theorem written_append (xs : List (TrellisPath × Bool)) (p : TrellisPath) (ok : Bool) :
    written (xs ++ [(p, ok)]) = written xs ++ (if ok then [p] else []) := by
  cases ok <;> simp [written]

theorem mem_written {xs : List (TrellisPath × Bool)} {p : TrellisPath} (h : p ∈ written xs) :
    ∃ q ∈ xs, q.1 = p := by
  simp only [written, List.mem_map, List.mem_filter] at h
  obtain ⟨q, ⟨hq, _⟩, rfl⟩ := h
  exact ⟨q, hq, rfl⟩

theorem renderRecords_append (transId : Int) (out : String) (xs ys : List TrellisPath) :
    renderRecords transId out (xs ++ ys) =
      renderRecords transId (renderRecords transId out xs) ys := by
  simp [renderRecords, List.foldl_append]

theorem snoc_eq_split {α : Type} {xs pre post : List α} {x y : α}
    (h : xs ++ [x] = pre ++ y :: post) :
    (post = [] ∧ xs = pre ∧ x = y) ∨ ∃ post', post = post' ++ [x] ∧ xs = pre ++ y :: post' := by
  rcases List.eq_nil_or_concat post with rfl | ⟨post', z, rfl⟩
  · left
    have := List.append_inj' h (by simp)
    simpa using this
  · right
    have h' : xs ++ [x] = (pre ++ y :: post') ++ [z] := by simpa using h
    have := List.append_inj' h' (by simp)
    obtain ⟨h1, h2⟩ := this
    have hz : x = z := by simpa using h2
    exact ⟨post', by rw [hz, List.concat_eq_append], h1⟩

theorem nbestInv_iter (ops : Contenders σ) (transId : Int) (st : NBestState σ)
    (h : NBestInv transId st) : NBestInv transId (nbestIter ops true transId st) := by
  obtain ⟨h1, h2, h3, h4, h5⟩ := h
  have hok : ∀ x : String, (setInsert st.distinctHypos x).2 = true ↔
      ∀ q ∈ st.popped, q.1.str ≠ x := by
    intro x
    unfold setInsert
    split
    · rename_i hc
      obtain ⟨q, hq, e⟩ := (h2 x).mp hc
      simp only [Bool.false_eq_true, false_iff]
      intro hall
      exact hall q hq e
    · rename_i hc
      simp only [true_iff]
      intro q hq e
      exact hc ((h2 x).mpr ⟨q, hq, e⟩)
  have hset : ∀ x s : String, s ∈ (setInsert st.distinctHypos x).1 ↔
      s ∈ st.distinctHypos ∨ s = x := by
    intro x s
    unfold setInsert
    split
    · rename_i hc
      constructor
      · intro h; exact Or.inl h
      · rintro (h | rfl)
        · exact h
        · exact hc
    · simp only [List.mem_cons]
      tauto
  simp only [nbestIter, if_true]
  refine ⟨?_, ?_, ?_, ?_, ?_⟩
  · simp [h1]
  · intro s
    simp only [hset, h2, List.mem_append, List.mem_singleton]
    constructor
    · rintro (⟨p, hp, e⟩ | rfl)
      · exact ⟨p, Or.inl hp, e⟩
      · exact ⟨_, Or.inr rfl, rfl⟩
    · rintro ⟨p, hp | rfl, e⟩
      · exact Or.inl ⟨p, hp, e⟩
      · exact Or.inr e.symm
  · rw [written_append]
    split
    · rename_i hc
      rw [List.map_append, List.nodup_append]
      refine ⟨h3, by simp, ?_⟩
      intro a ha hb
      simp only [List.map_cons, List.map_nil, List.mem_singleton] at hb
      simp only [List.mem_map] at ha
      obtain ⟨w, hw, rfl⟩ := ha
      obtain ⟨q, hq, rfl⟩ := mem_written hw
      exact (hok _).mp hc q hq hb
    · simpa using h3
  · intro pre p ok post hsplit
    rcases snoc_eq_split hsplit with ⟨_, hpre, hx⟩ | ⟨post', _, hxs⟩
    · have e1 : p = (ops.Get st.contenders).1 := by
        have := congrArg Prod.fst hx; simpa using this.symm
      have e2 : ok = (setInsert st.distinctHypos (ops.Get st.contenders).1.str).2 := by
        have := congrArg Prod.snd hx; simpa using this.symm
      rw [e2, hok, ← hpre, e1]
    · exact h4 pre p ok post' hxs
  · rw [written_append, renderRecords_append, ← h5]
    split <;> simp [renderRecords]

theorem nbestLoop_spec (ops : Contenders σ) (transId : Int) :
    ∀ (remaining : Nat) (st : NBestState σ), NBestInv transId st →
      NBestInv transId (nbestLoop ops true transId remaining st) ∧
      (nbestLoop ops true transId remaining st).popped.length ≤ st.popped.length + remaining ∧
      ((nbestLoop ops true transId remaining st).popped.length < st.popped.length + remaining →
        ops.isEmpty (nbestLoop ops true transId remaining st).contenders = true) := by
  intro remaining
  induction remaining with
  | zero => intro st h; simp [nbestLoop, h]
  | succ n ih =>
    intro st h
    unfold nbestLoop
    split
    · rename_i hc
      exact ⟨h, by omega, fun _ => hc⟩
    · have hlen : (nbestIter ops true transId st).popped.length = st.popped.length + 1 := by
        simp [nbestIter]
      obtain ⟨i1, i2, i3⟩ := ih _ (nbestInv_iter ops transId st h)
      rw [hlen] at i2 i3
      exact ⟨i1, by omega, fun hlt => i3 (by omega)⟩

theorem nbestInv_init (transId : Int) (initial : σ) :
    NBestInv transId
      ({ bestInd := 0, contenders := initial, distinctHypos := [], out := "", popped := [] } :
        NBestState σ) := by
  refine ⟨rfl, ?_, ?_, ?_, ?_⟩
  · intro s; simp
  · simp [written]
  · intro pre p ok post h
    simp at h
  · simp [written, renderRecords]

theorem outputNBestRun_spec (ops : Contenders σ) (nbest_size : Nat) (transId : Int)
    (initial : σ) :
    NBestInv transId (OutputNBestRun ops true nbest_size transId initial) ∧
      (OutputNBestRun ops true nbest_size transId initial).popped.length ≤ nbest_size ∧
      ((OutputNBestRun ops true nbest_size transId initial).popped.length < nbest_size →
        ops.isEmpty (OutputNBestRun ops true nbest_size transId initial).contenders = true) := by
  have := nbestLoop_spec ops transId nbest_size _ (nbestInv_init transId initial)
  simpa [OutputNBestRun] using this

theorem written_length_le (xs : List (TrellisPath × Bool)) :
    (written xs).length ≤ xs.length := by
  simp only [written, List.length_map]
  exact List.length_filter_le _ _

theorem mem_written_str_of_firstOcc (xs : List (TrellisPath × Bool))
    (h : ∀ pre p ok post, xs = pre ++ (p, ok) :: post →
      (ok = true ↔ ∀ q ∈ pre, q.1.str ≠ p.str)) :
    ∀ p ∈ xs, p.1.str ∈ (written xs).map (fun p => p.str) := by
  induction xs using List.reverseRecOn with
  | nil => intro p hp; exact absurd hp (List.not_mem_nil _)
  | append_singleton xs x ih =>
    have h' : ∀ pre p ok post, xs = pre ++ (p, ok) :: post →
        (ok = true ↔ ∀ q ∈ pre, q.1.str ≠ p.str) := by
      intro pre p ok post e
      exact h pre p ok (post ++ [x]) (by rw [e]; simp)
    have ihx := ih h'
    obtain ⟨xp, xok⟩ := x
    have hlast := h xs xp xok [] rfl
    have hmono : ∀ s, s ∈ (written xs).map (fun p => p.str) →
        s ∈ (written (xs ++ [(xp, xok)])).map (fun p => p.str) := by
      intro s hs
      rw [written_append, List.map_append]
      exact List.mem_append_left _ hs
    intro p hp
    rcases List.mem_append.mp hp with hp | hp
    · exact hmono _ (ihx p hp)
    · have e : p = (xp, xok) := by simpa using hp
      subst e
      cases xok with
      | true =>
        rw [written_append]
        simp
      | false =>
        have : ¬∀ q ∈ xs, q.1.str ≠ xp.str := by
          intro hall
          exact Bool.noConfusion (hlast.mpr hall)
        push_neg at this
        obtain ⟨q, hq, e⟩ := this
        have := hmono _ (ihx q hq)
        simpa [e] using this

end NBestLemmas

/-! ## ThreadPool: auxiliary lemmas -/

theorem poolStep_flags (s : PoolState) (st : PoolStep) :
    (s.pool.m_stopping = true → (poolStep s st).pool.m_stopping = true) ∧
      (s.pool.m_stopped = true → (poolStep s st).pool.m_stopped = true) := by
  cases st with
  | submit task =>
    simp only [poolStep, Submit, SubmitWait]
    split_ifs <;> simp
  | submitWake i =>
    simp only [poolStep, SubmitWait]
    split
    · simp
    · split_ifs <;> simp
  | execute =>
    simp only [poolStep, ExecuteIter]
    split_ifs
    · split <;> simp
    · simp
  | stop b =>
    simp only [poolStep, StopEnter]
    split_ifs <;> simp
  | stopAdvance i =>
    simp only [poolStep, StopFinish]
    split
    · simp
    · split_ifs <;> simp

theorem poolInv_step (s : PoolState) (st : PoolStep) (h : PoolInv s) :
    PoolInv (poolStep s st) := by
  obtain ⟨h1, h2⟩ := h
  cases st with
  | submit task =>
    simp only [poolStep, Submit, SubmitWait]
    split_ifs <;> exact ⟨by simpa using h1, by simpa using h2⟩
  | submitWake i =>
    simp only [poolStep, SubmitWait]
    split
    · exact ⟨h1, h2⟩
    · split_ifs <;> exact ⟨by simpa using h1, by simpa using h2⟩
  | execute =>
    simp only [poolStep, ExecuteIter]
    split_ifs
    · split <;> exact ⟨by simpa using h1, by simpa using h2⟩
    · exact ⟨h1, h2⟩
  | stop b =>
    simp only [poolStep, StopEnter]
    split_ifs
    · exact ⟨h1, h2⟩
    · exact ⟨by simp, by simp⟩
  | stopAdvance i =>
    simp only [poolStep, StopFinish]
    split
    · exact ⟨h1, h2⟩
    · rename_i b hb
      have hne : s.pendingStops ≠ [] := by
        intro e
        rw [e] at hb
        simp at hb
      split_ifs
      · exact ⟨fun _ => h2 hne, fun _ => h2 hne⟩
      · exact ⟨h1, h2⟩

theorem poolRun_flags : ∀ (steps : List PoolStep) (s : PoolState),
    (s.pool.m_stopping = true → (poolRun s steps).pool.m_stopping = true) ∧
      (s.pool.m_stopped = true → (poolRun s steps).pool.m_stopped = true) := by
  intro steps
  induction steps with
  | nil => intro s; simp [poolRun]
  | cons st steps ih =>
    intro s
    have h := poolStep_flags s st
    have h' := ih (poolStep s st)
    simp only [poolRun, List.foldl_cons] at h' ⊢
    exact ⟨fun x => h'.1 (h.1 x), fun x => h'.2 (h.2 x)⟩

theorem poolInv_run : ∀ (steps : List PoolStep) (s : PoolState), PoolInv s →
    PoolInv (poolRun s steps) := by
  intro steps
  induction steps with
  | nil => intro s h; simpa [poolRun] using h
  | cons st steps ih =>
    intro s h
    have h' := ih (poolStep s st) (poolInv_step s st h)
    simpa [poolRun] using h'

theorem poolInv_init (limit : Nat) : PoolInv (PoolState.init limit) := by
  simp [PoolInv, PoolState.init, ThreadPool.new, ThreadPool.SetQueueLimit]


theorem submitWait_pushed_iff (p : ThreadPool) (task : Task) :
    ((SubmitWait p task).2 = SubmitResult.pushed ↔
        p.m_queueLimit = 0 ∨ p.m_tasks.length < p.m_queueLimit) ∧
      ((SubmitWait p task).2 = SubmitResult.blocked ↔
        0 < p.m_queueLimit ∧ p.m_queueLimit ≤ p.m_tasks.length) ∧
      ((SubmitWait p task).2 = SubmitResult.pushed →
        (SubmitWait p task).1 = { p with m_tasks := p.m_tasks ++ [task] }) ∧
      ((SubmitWait p task).2 = SubmitResult.blocked → (SubmitWait p task).1 = p) := by
  unfold SubmitWait
  split_ifs with h
  · refine ⟨?_, ?_, ?_, ?_⟩ <;> simp <;> omega
  · refine ⟨?_, ?_, ?_, ?_⟩ <;> simp <;> omega

theorem executeIter_front (p : ThreadPool) :
    ((ExecuteIter p).2 = none ∧ (ExecuteIter p).1 = p) ∨
      ∃ task rest, p.m_tasks = task :: rest ∧ (ExecuteIter p).2 = some task ∧
        (ExecuteIter p).1 = { p with m_tasks := rest } := by
  unfold ExecuteIter
  split_ifs with h
  · cases hq : p.m_tasks with
    | nil => left; simp
    | cons task rest => right; exact ⟨task, rest, rfl, by simp, by simp⟩
  · left; simp

theorem queueInv_step (limit : Nat) (s : PoolState) (st : PoolStep) (h : QueueInv limit s) :
    QueueInv limit (poolStep s st) := by
  obtain ⟨h1, h2, h3⟩ := h
  cases st with
  | submit task =>
    simp only [poolStep, Submit, SubmitWait]
    split_ifs with ha hb
    · exact ⟨h1, h2, h3⟩
    · refine ⟨h1, h2, ?_⟩
      intro h0
      omega
    · refine ⟨h1, ?_, h3⟩
      intro hpos
      have := h2 hpos
      simp only [List.length_append, List.length_singleton]
      omega
  | submitWake i =>
    simp only [poolStep, SubmitWait]
    split
    · exact ⟨h1, h2, h3⟩
    · split_ifs with ha
      · exact ⟨h1, h2, h3⟩
      · refine ⟨h1, ?_, ?_⟩
        · intro hpos
          have := h2 hpos
          simp only [List.length_append, List.length_singleton]
          omega
        · intro h0
          simp [h3 h0]
  | execute =>
    rcases executeIter_front s.pool with ⟨_, e⟩ | ⟨task, rest, e1, _, e2⟩
    · simp only [poolStep, e]
      exact ⟨h1, h2, h3⟩
    · simp only [poolStep, e2]
      refine ⟨h1, ?_, h3⟩
      intro hpos
      have := h2 hpos
      rw [e1] at this
      simp only [List.length_cons] at this
      show rest.length ≤ limit
      omega
  | stop b =>
    simp only [poolStep, StopEnter]
    split_ifs
    · exact ⟨h1, h2, h3⟩
    · exact ⟨h1, h2, h3⟩
  | stopAdvance i =>
    simp only [poolStep, StopFinish]
    split
    · exact ⟨h1, h2, h3⟩
    · split_ifs
      · exact ⟨h1, h2, h3⟩
      · exact ⟨h1, h2, h3⟩

theorem queueInv_run (limit : Nat) : ∀ (steps : List PoolStep) (s : PoolState),
    QueueInv limit s → QueueInv limit (poolRun s steps) := by
  intro steps
  induction steps with
  | nil => intro s h; simpa [poolRun] using h
  | cons st steps ih =>
    intro s h
    have h' := ih (poolStep s st) (queueInv_step limit s st h)
    simpa [poolRun] using h'

theorem queueInv_init (limit : Nat) : QueueInv limit (PoolState.init limit) := by
  simp [QueueInv, PoolState.init, ThreadPool.new, ThreadPool.SetQueueLimit]

/-! ## The future-cost table -/

section FutureScoreClaims

variable {K : Type} [LinearOrderedRing K]

/-- C1, as stated, fails on the float table: with single-word candidates of
future scores 16777216 and 1 and no candidate for the pair, every seeded entry
is a number or `-∞`, the decomposition of `[0, 1]` into its two words sums to
16777217, and `CalcFutureScore` leaves 16777216 in the cell of `[0, 1]`, the
rounded sum: the entry is below that sum and equals the sum of no
decomposition. -/
theorem calcFutureScore32_entry_below_decomposition :
    ((seedScores32 roundingPaths 0 0).isScore = true ∧
        (seedScores32 roundingPaths 1 1).isScore = true ∧
        (seedScores32 roundingPaths 0 1).isScore = true) ∧
      IsDecomp 0 1 [(0, 0), (1, 1)] ∧
      decompScore (exactTable (seedScores32 roundingPaths)) [(0, 0), (1, 1)] =
        ((unitsOf 16777217 : ℤ) : WithBot ℤ) ∧
      CalcFutureScore32 2 roundingPaths 0 1 = Float32.ofInt 16777216 ∧
      (CalcFutureScore32 2 roundingPaths 0 1).val = ((unitsOf 16777216 : ℤ) : WithBot ℤ) ∧
      ¬(decompScore (exactTable (seedScores32 roundingPaths)) [(0, 0), (1, 1)] ≤
        (CalcFutureScore32 2 roundingPaths 0 1).val) ∧
      ¬∃ pieces, IsDecomp 0 1 pieces ∧
        (CalcFutureScore32 2 roundingPaths 0 1).val =
          decompScore (exactTable (seedScores32 roundingPaths)) pieces := by
  refine ⟨by decide, by decide, by decide, by decide, by decide, by decide, ?_⟩
  rintro ⟨pieces, hd, he⟩
  rcases isDecomp_cases hd with rfl | ⟨k, rest, rfl, _, h2, h3⟩
  · revert he; decide
  · have hk : k = 0 := by omega
    subst hk
    rcases isDecomp_cases h3 with rfl | ⟨k', rest', rfl, h1', h2', _⟩
    · revert he; decide
    · omega

/-- C1, amended: for every span `[i, j]` with `i ≤ j < size` such that no
seeded entry of a sub-span of `[i, j]` is NaN or `+∞` and the exact sum of the
seeded entries of every decomposition of every sub-span of `[i, j]` is
representable as a float, the entry left by `CalcFutureScore` over floats is a
number or `-∞`, is at least the exact sum of the seeded entries of the pieces
of every decomposition of `[i, j]`, hence at least its own seeded value, and
equals that sum for some decomposition: it is the maximum over all
decompositions. -/
theorem calcFutureScore32_is_max_when_sums_exact (size : Nat) (paths : List InputPath32)
    (i j : Nat) (hij : i ≤ j) (hj : j < size)
    (hscore : ∀ a b, i ≤ a → a ≤ b → b ≤ j → (seedScores32 paths a b).isScore = true)
    (hexact : ∀ a b pieces, i ≤ a → b ≤ j → IsDecomp a b pieces →
      Representable (decompScore (exactTable (seedScores32 paths)) pieces)) :
    (CalcFutureScore32 size paths i j).isScore = true ∧
      (∀ pieces, IsDecomp i j pieces →
        decompScore (exactTable (seedScores32 paths)) pieces ≤
          (CalcFutureScore32 size paths i j).val) ∧
      (seedScores32 paths i j).val ≤ (CalcFutureScore32 size paths i j).val ∧
      ∃ pieces, IsDecomp i j pieces ∧
        (CalcFutureScore32 size paths i j).val =
          decompScore (exactTable (seedScores32 paths)) pieces := by
  obtain ⟨h0, h⟩ := fillScores32_best (seedScores32 paths) size i j hij hj hscore hexact
  exact ⟨h0, h.1, isBestDecomp_seed_le hij h, h.2⟩

/-- Witness of the amended C1 on a 2-word sentence with float scores 1, 2 for
the words and 1 for the pair, where the full-span entry is 3. -/
theorem calcFutureScore32_is_max_when_sums_exact_witness :
    (0 ≤ 1 ∧ 1 < 2) ∧
      (∀ a b, 0 ≤ a → a ≤ b → b ≤ 1 → (seedScores32 smallPaths a b).isScore = true) ∧
      (∀ a b pieces, 0 ≤ a → b ≤ 1 → IsDecomp a b pieces →
        Representable (decompScore (exactTable (seedScores32 smallPaths)) pieces)) ∧
      ((CalcFutureScore32 2 smallPaths 0 1).isScore = true ∧
        (∀ pieces, IsDecomp 0 1 pieces →
          decompScore (exactTable (seedScores32 smallPaths)) pieces ≤
            (CalcFutureScore32 2 smallPaths 0 1).val) ∧
        (seedScores32 smallPaths 0 1).val ≤ (CalcFutureScore32 2 smallPaths 0 1).val ∧
        ∃ pieces, IsDecomp 0 1 pieces ∧
          (CalcFutureScore32 2 smallPaths 0 1).val =
            decompScore (exactTable (seedScores32 smallPaths)) pieces) :=
  ⟨by decide, smallPaths_scores, smallPaths_sums_exact,
    calcFutureScore32_is_max_when_sums_exact 2 smallPaths 0 1 (by decide) (by decide)
      smallPaths_scores smallPaths_sums_exact⟩

/-- C2: when the ranges of the input paths are pairwise distinct, the first pass
leaves in the cell of every path `p` the maximum future score over all target
phrases of all phrase tables of `p` when there is one, and `-∞` when `p` has no
target phrase at all; any path with the same set of candidate scores, however
they are spread over phrase tables, gets the same value. -/
theorem seedScores_is_max_candidate (paths : List (InputPath K)) (p : InputPath K)
    (hp : p ∈ paths) (hdistinct : (paths.map (fun q => q.range)).Nodup) :
    (allScores p = [] → seedScores paths p.range.startPos p.range.endPos = ⊥) ∧
      (allScores p ≠ [] →
        seedScores paths p.range.startPos p.range.endPos ∈ allScores p ∧
        ∀ s ∈ allScores p, s ≤ seedScores paths p.range.startPos p.range.endPos) ∧
      ∀ q : InputPath K, (∀ s, s ∈ allScores q ↔ s ∈ allScores p) →
        pathBestScore q = seedScores paths p.range.startPos p.range.endPos := by
  have e : seedScores paths p.range.startPos p.range.endPos = pathBestScore p := by
    rw [seedScores_eq]
    exact seedFold_mem paths _ p hp hdistinct
  rw [e]
  exact ⟨(pathBestScore_spec p).1, (pathBestScore_spec p).2, fun q h => pathBestScore_congr p q h⟩

/-- Witness of C2 on a path with candidates in two phrase tables. -/
theorem seedScores_is_max_candidate_witness :
    (twoTableFirst ∈ twoTablePaths ∧ (twoTablePaths.map (fun q => q.range)).Nodup) ∧
      ((allScores twoTableFirst = [] →
          seedScores twoTablePaths twoTableFirst.range.startPos twoTableFirst.range.endPos = ⊥) ∧
        (allScores twoTableFirst ≠ [] →
          seedScores twoTablePaths twoTableFirst.range.startPos twoTableFirst.range.endPos
              ∈ allScores twoTableFirst ∧
          ∀ s ∈ allScores twoTableFirst,
            s ≤ seedScores twoTablePaths twoTableFirst.range.startPos
              twoTableFirst.range.endPos) ∧
        ∀ q : InputPath ℤ, (∀ s, s ∈ allScores q ↔ s ∈ allScores twoTableFirst) →
          pathBestScore q =
            seedScores twoTablePaths twoTableFirst.range.startPos twoTableFirst.range.endPos) :=
  ⟨⟨List.mem_cons_self _ _, by decide⟩,
    seedScores_is_max_candidate twoTablePaths twoTableFirst (List.mem_cons_self _ _)
      (by decide)⟩

/-- C3, as stated, fails: in the 3-word scenario the full-span entry is 3, the
sum of the three single-word candidates, and not 2. -/
theorem scenario3_full_span_ne_two :
    IsScenario3 scenarioPaths ∧ CalcFutureScore 3 scenarioPaths 0 2 = 3 ∧
      CalcFutureScore 3 scenarioPaths 0 2 ≠ 2 := by
  refine ⟨?_, by decide, by decide⟩
  unfold IsScenario3
  decide

/-- C3, amended: in the 3-word scenario (every single-word span and every
adjacent-pair span has exactly one candidate of future score 1, the full span
has none) the full-span entry built by `CalcFutureScore` is 3. -/
theorem scenario3_full_span_eq_three (paths : List (InputPath K)) (h : IsScenario3 paths) :
    CalcFutureScore 3 paths 0 2 = 3 := by
  obtain ⟨hnd, hone, hnone⟩ := h
  have hseed : ∀ a b, (⟨a, b⟩ : Range) ∈ [(⟨0, 0⟩ : Range), ⟨1, 1⟩, ⟨2, 2⟩, ⟨0, 1⟩, ⟨1, 2⟩] →
      seedScores paths a b = 1 := by
    intro a b hr
    obtain ⟨p, hp, hpr, hs⟩ := hone _ hr
    have e := seedFold_mem paths (InitTriangle ⊥) p hp hnd
    rw [hpr] at e
    rw [seedScores_eq, e, pathBestScore_eq, hs]
    simp
  exact fill3_scenario (seedScores paths) (hseed 0 0 (by simp)) (hseed 1 1 (by simp))
    (hseed 2 2 (by simp)) (hseed 0 1 (by simp)) (hseed 1 2 (by simp))
    (seedScores_bot paths 0 2 hnone)

/-- Witness of the amended C3 on the scenario over integer scores. -/
theorem scenario3_full_span_eq_three_witness :
    IsScenario3 scenarioPaths ∧ CalcFutureScore 3 scenarioPaths 0 2 = 3 :=
  ⟨by unfold IsScenario3; decide,
    scenario3_full_span_eq_three scenarioPaths (by unfold IsScenario3; decide)⟩

end FutureScoreClaims

/-! ## N-best output -/

section NBestClaims

variable {σ : Type}

/-- C5, as stated, fails: with `only_distinct`, a request of 2 on the
contenders `a, a, b` stops after two pops with one line written and `b` still
among the contenders; and a request of 5 on `a, a, a, a, a, b`, where two
distinct outputs are achievable, writes one line, not two. -/
theorem outputNBest_stops_on_popped_count :
    written (OutputNBestRun listContenders true 2 0 [pathA, pathA, pathB]).popped = [pathA] ∧
      (OutputNBestRun listContenders true 2 0 [pathA, pathA, pathB]).contenders = [pathB] ∧
      listContenders.isEmpty
        (OutputNBestRun listContenders true 2 0 [pathA, pathA, pathB]).contenders = false ∧
      OutputNBest listContenders true 2 0 [pathA, pathA, pathB] = "0 |||a\n" ∧
      written (OutputNBestRun listContenders true 5 0
        [pathA, pathA, pathA, pathA, pathA, pathB]).popped = [pathA] ∧
      OutputNBest listContenders true 5 0 [pathA, pathA, pathA, pathA, pathA, pathB]
        = "0 |||a\n" := by
  decide

/-- C5, amended: with `only_distinct`, the main loop of `OutputNBest` pops
contenders until `nbest_size` paths have been popped, written or skipped as
duplicates alike, or the contenders collection is empty; it writes one record
per distinct string among the popped paths, so at most `nbest_size` records,
and at most 2 when the popped paths have only two different strings. -/
theorem outputNBest_pops_at_most_nbest_size (ops : Contenders σ) (nbest_size : Nat)
    (transId : Int) (initial : σ) :
    (OutputNBestRun ops true nbest_size transId initial).popped.length ≤ nbest_size ∧
      (OutputNBestRun ops true nbest_size transId initial).bestInd =
        (OutputNBestRun ops true nbest_size transId initial).popped.length ∧
      ((OutputNBestRun ops true nbest_size transId initial).popped.length < nbest_size →
        ops.isEmpty (OutputNBestRun ops true nbest_size transId initial).contenders = true) ∧
      (written (OutputNBestRun ops true nbest_size transId initial).popped).length ≤
        (OutputNBestRun ops true nbest_size transId initial).popped.length ∧
      ((written (OutputNBestRun ops true nbest_size transId initial).popped).map
        (fun p => p.str)).Nodup ∧
      (∀ p ∈ (OutputNBestRun ops true nbest_size transId initial).popped,
        p.1.str ∈ (written (OutputNBestRun ops true nbest_size transId initial).popped).map
          (fun p => p.str)) ∧
      OutputNBest ops true nbest_size transId initial = renderRecords transId ""
        (written (OutputNBestRun ops true nbest_size transId initial).popped) ∧
      ∀ a b : String,
        (∀ p ∈ (OutputNBestRun ops true nbest_size transId initial).popped,
          p.1.str = a ∨ p.1.str = b) →
        (written (OutputNBestRun ops true nbest_size transId initial).popped).length ≤ 2 := by
  obtain ⟨⟨h1, h2, h3, h4, h5⟩, hle, hstop⟩ := outputNBestRun_spec ops nbest_size transId initial
  refine ⟨hle, h1, hstop, written_length_le _, h3, ?_, h5, ?_⟩
  · exact mem_written_str_of_firstOcc _ h4
  · intro a b hab
    have hsub : (written (OutputNBestRun ops true nbest_size transId initial).popped).map
        (fun p => p.str) ⊆ [a, b] := by
      intro s hs
      simp only [List.mem_map] at hs
      obtain ⟨w, hw, rfl⟩ := hs
      obtain ⟨q, hq, rfl⟩ := mem_written hw
      rcases hab q hq with e | e <;> simp [e]
    have := (List.Nodup.subperm h3 hsub).length_le
    simpa using this

/-- C6: with `only_distinct`, the paths written by `OutputNBest` have pairwise
different strings; a popped path is written iff no path popped before it in
the same call has its string, so the first path with each string is the one
written; and the returned string is made of the records of the written paths. -/
theorem outputNBest_writes_first_of_each_string (ops : Contenders σ) (nbest_size : Nat)
    (transId : Int) (initial : σ) :
    ((written (OutputNBestRun ops true nbest_size transId initial).popped).map
        (fun p => p.str)).Nodup ∧
      (∀ pre p ok post,
        (OutputNBestRun ops true nbest_size transId initial).popped = pre ++ (p, ok) :: post →
        (ok = true ↔ ∀ q ∈ pre, q.1.str ≠ p.str)) ∧
      OutputNBest ops true nbest_size transId initial = renderRecords transId ""
        (written (OutputNBestRun ops true nbest_size transId initial).popped) := by
  obtain ⟨⟨_, _, h3, h4, h5⟩, _, _⟩ := outputNBestRun_spec ops nbest_size transId initial
  exact ⟨h3, h4, h5⟩

end NBestClaims

/-! ## ThreadPool: submission and lifecycle -/

/-- C7: `Submit` is rejected exactly when `m_stopping` is set; when it is set
the call is rejected at once, whatever the queue length and limit, and leaves
the pool and the calls in flight unchanged; and after the first block of a
`Stop` on a pool that is not stopped, `Submit` is rejected. -/
theorem submit_rejected_iff_stopping (p : ThreadPool) (task : Task) :
    ((Submit p task).2 = SubmitResult.rejected ↔ p.m_stopping = true) ∧
      (p.m_stopping = true → Submit p task = (p, SubmitResult.rejected)) ∧
      (p.m_stopping = false → (Submit p task).2 ≠ SubmitResult.rejected) ∧
      (p.m_stopped = false →
        Submit (StopEnter p).1 task = ((StopEnter p).1, SubmitResult.rejected)) ∧
      ∀ s : PoolState, s.pool = p → p.m_stopping = true →
        poolStep s (PoolStep.submit task) = s := by
  have hiff : (Submit p task).2 = SubmitResult.rejected ↔ p.m_stopping = true := by
    unfold Submit SubmitWait
    split_ifs <;> simp_all
  refine ⟨hiff, ?_, ?_, ?_, ?_⟩
  · intro h
    simp [Submit, h]
  · intro h hr
    rw [hiff.mp hr] at h
    exact Bool.noConfusion h
  · intro h
    simp [Submit, StopEnter, h]
  · intro s hs h
    subst hs
    simp [poolStep, Submit, h]

/-- C8: `Manager::Decode` aborts iff `search.algo` is none of `Normal`,
`NormalBatch`, `CubePruning`, `CubePruningMiniStack`; it then reports
`Unknown search algorithm`, constructs no search and runs no search `Decode`;
otherwise it constructs exactly one search, of the class of the algorithm, and
runs its `Decode` once. -/
theorem decode_aborts_iff_unknown_algo (algo : SearchAlgorithm) :
    (ManagerEvent.abort ∈ Decode algo ↔
      algo ≠ SearchAlgorithm.Normal ∧ algo ≠ SearchAlgorithm.NormalBatch ∧
        algo ≠ SearchAlgorithm.CubePruning ∧ algo ≠ SearchAlgorithm.CubePruningMiniStack) ∧
      (ManagerEvent.abort ∈ Decode algo →
        Decode algo = [ManagerEvent.report "Unknown search algorithm", ManagerEvent.abort] ∧
        (Init algo).2 = none ∧
        ∀ c, ManagerEvent.construct c ∉ Decode algo ∧
          ManagerEvent.searchDecode c ∉ Decode algo) ∧
      (algo = SearchAlgorithm.Normal →
        Decode algo = [ManagerEvent.construct SearchClass.NSNormal,
          ManagerEvent.searchDecode SearchClass.NSNormal]) ∧
      (algo = SearchAlgorithm.NormalBatch →
        Decode algo = [ManagerEvent.construct SearchClass.NSBatch,
          ManagerEvent.searchDecode SearchClass.NSBatch]) ∧
      (algo = SearchAlgorithm.CubePruning ∨ algo = SearchAlgorithm.CubePruningMiniStack →
        Decode algo = [ManagerEvent.construct SearchClass.NSCubePruningMiniStack,
          ManagerEvent.searchDecode SearchClass.NSCubePruningMiniStack]) := by
  cases algo <;> simp [Decode, Init]

/-- C9: when there is no best hypothesis `OutputBest` returns `0 ` and a
newline with `ReportHypoScore` and a lone newline without it; when there is
one it returns the rendered hypothesis followed by a newline, preceded by the
total score and a space exactly when `ReportHypoScore` is set; in every case
the returned string ends with a newline. -/
theorem outputBest_cases (hypo : Hypothesis) :
    OutputBest true none = "0 \n" ∧ OutputBest false none = "\n" ∧
      OutputBest true (some hypo) = hypo.totalScore ++ " " ++ hypo.rendered ++ "\n" ∧
      OutputBest false (some hypo) = hypo.rendered ++ "\n" ∧
      ∀ (ReportHypoScore : Bool) (bestHypo : Option Hypothesis),
        (OutputBest ReportHypoScore bestHypo).data.getLast? = some '\n' := by
  refine ⟨by decide, by decide, ?_, ?_, ?_⟩
  · simp [OutputBest]
  · simp [OutputBest]
  · intro r b
    simp [OutputBest, String.data_append]

/-- C10: from the state left by the constructor, whatever the queue limit and
whatever steps of `Submit`, `Execute` and `Stop` are taken, `m_stopped` implies
`m_stopping`; no further steps bring either flag from true back to false; and
a `Stop` issued when `m_stopped` is already true changes nothing. -/
theorem pool_lifecycle_one_way (limit : Nat) (steps more : List PoolStep) :
    (PoolState.init limit).pool.m_stopping = false ∧
      (PoolState.init limit).pool.m_stopped = false ∧
      ((poolRun (PoolState.init limit) steps).pool.m_stopped = true →
        (poolRun (PoolState.init limit) steps).pool.m_stopping = true) ∧
      ((poolRun (PoolState.init limit) steps).pool.m_stopping = true →
        (poolRun (poolRun (PoolState.init limit) steps) more).pool.m_stopping = true) ∧
      ((poolRun (PoolState.init limit) steps).pool.m_stopped = true →
        (poolRun (poolRun (PoolState.init limit) steps) more).pool.m_stopped = true) ∧
      poolRun (poolRun (PoolState.init limit) steps) more =
        poolRun (PoolState.init limit) (steps ++ more) ∧
      ∀ processRemainingJobs : Bool,
        (poolRun (PoolState.init limit) steps).pool.m_stopped = true →
        StopEnter (poolRun (PoolState.init limit) steps).pool =
            ((poolRun (PoolState.init limit) steps).pool, true) ∧
          poolStep (poolRun (PoolState.init limit) steps) (PoolStep.stop processRemainingJobs) =
            poolRun (PoolState.init limit) steps := by
  have hinv := poolInv_run steps _ (poolInv_init limit)
  have hfl := poolRun_flags more (poolRun (PoolState.init limit) steps)
  refine ⟨rfl, rfl, hinv.1, hfl.1, hfl.2, ?_, ?_⟩
  · simp [poolRun, List.foldl_append]
  · intro b h
    simp [poolStep, StopEnter, h]


/-- C11: `Submit` appends its task at the back of the queue only when the
queue limit is 0 or the queue is shorter than the limit, and stays blocked
otherwise; an `Execute` iteration leaves the queue as it is or removes its
front task; hence from the empty queue of a fresh pool with limit `q > 0`,
whatever steps are taken, the queue never holds more than `q` tasks, and with
limit 0 no `Submit` is ever blocked. -/
theorem queue_length_never_exceeds_limit (limit : Nat) (steps : List PoolStep) (task : Task) :
    (∀ p : ThreadPool, (Submit p task).2 = SubmitResult.pushed →
        (p.m_queueLimit = 0 ∨ p.m_tasks.length < p.m_queueLimit) ∧
          (Submit p task).1.m_tasks = p.m_tasks ++ [task]) ∧
      (∀ p : ThreadPool, (SubmitWait p task).2 = SubmitResult.pushed →
        (p.m_queueLimit = 0 ∨ p.m_tasks.length < p.m_queueLimit) ∧
          (SubmitWait p task).1.m_tasks = p.m_tasks ++ [task]) ∧
      (∀ p : ThreadPool, p.m_stopping = false →
        ¬(p.m_queueLimit = 0 ∨ p.m_tasks.length < p.m_queueLimit) →
        Submit p task = (p, SubmitResult.blocked)) ∧
      (∀ p : ThreadPool, ¬(p.m_queueLimit = 0 ∨ p.m_tasks.length < p.m_queueLimit) →
        SubmitWait p task = (p, SubmitResult.blocked)) ∧
      (∀ p : ThreadPool, (ExecuteIter p).1.m_tasks = p.m_tasks ∨
        ∃ front, p.m_tasks = front :: (ExecuteIter p).1.m_tasks ∧
          (ExecuteIter p).2 = some front) ∧
      (PoolState.init limit).pool.m_tasks = [] ∧
      (poolRun (PoolState.init limit) steps).pool.m_queueLimit = limit ∧
      (0 < limit → (poolRun (PoolState.init limit) steps).pool.m_tasks.length ≤ limit) ∧
      (∀ p : ThreadPool, p.m_queueLimit = 0 →
        (Submit p task).2 ≠ SubmitResult.blocked ∧
          (SubmitWait p task).2 = SubmitResult.pushed) ∧
      (limit = 0 → (poolRun (PoolState.init limit) steps).waitingSubmits = []) := by
  have hinv := queueInv_run limit steps _ (queueInv_init limit)
  have hwait : ∀ p : ThreadPool, (SubmitWait p task).2 = SubmitResult.pushed →
      (p.m_queueLimit = 0 ∨ p.m_tasks.length < p.m_queueLimit) ∧
        (SubmitWait p task).1.m_tasks = p.m_tasks ++ [task] := by
    intro p hp
    obtain ⟨a, _, c, _⟩ := submitWait_pushed_iff p task
    exact ⟨a.mp hp, by rw [c hp]⟩
  have hblock : ∀ p : ThreadPool, ¬(p.m_queueLimit = 0 ∨ p.m_tasks.length < p.m_queueLimit) →
      SubmitWait p task = (p, SubmitResult.blocked) := by
    intro p hp
    obtain ⟨_, b, _, d⟩ := submitWait_pushed_iff p task
    have hb : (SubmitWait p task).2 = SubmitResult.blocked := b.mpr (by omega)
    exact Prod.ext (d hb) hb
  refine ⟨?_, hwait, ?_, hblock, ?_, rfl, hinv.1, hinv.2.1, ?_, hinv.2.2⟩
  · intro p hp
    by_cases hs : p.m_stopping = true
    · simp [Submit, hs] at hp
    · have e : Submit p task = SubmitWait p task := by simp [Submit, hs]
      rw [e] at hp ⊢
      exact hwait p hp
  · intro p hs hp
    have e : Submit p task = SubmitWait p task := by simp [Submit, hs]
    rw [e]
    exact hblock p hp
  · intro p
    rcases executeIter_front p with ⟨_, e⟩ | ⟨front, rest, e1, e2, e3⟩
    · left; rw [e]
    · right
      exact ⟨front, by rw [e3]; exact e1, e2⟩
  · intro p h0
    have hpush : (SubmitWait p task).2 = SubmitResult.pushed :=
      (submitWait_pushed_iff p task).1.mpr (Or.inl h0)
    refine ⟨?_, hpush⟩
    by_cases hs : p.m_stopping = true
    · simp [Submit, hs]
    · have e : Submit p task = SubmitWait p task := by simp [Submit, hs]
      rw [e, hpush]
      simp

end Moses2
